import Mathlib

/-!
Volume specifications of `azure/convert/volume.go`.

A shallow embedding of `escapeKeySlashes`, `unescapeKey`, `volumeURL`,
`volumeInput.parse` and `GetRunVolumes`, together with the parts of Go's
`strings` and `net/url` packages that these functions call.

Go strings are modelled as lists of characters (`Str`).  Every delimiter the
code searches for (`@`, `:`, `/`, `_`, `?`, `#`, `%`, `[`, `]`) is ASCII, so the
character-wise operations below agree with Go's byte-wise ones.

A run-time panic (index out of range) is modelled by `none` in the outermost
`Option` of a result; Go's `error` results are modelled by `Except` or by an
`Option` error next to the returned values.
-/

namespace Volume

/-- Go `string`. -/
abbrev Str := List Char

/-! ## Package `strings` (one-byte separators, as at every call site) -/

namespace strings

/-- `strings.Count(s, sep)`. -/
def Count (s : Str) (sep : Char) : Nat := s.count sep

/-- `strings.Index(s, sep)`: position of the first `sep`, or `-1`. -/
def Index : Str → Char → Int
  | [], _ => -1
  | c :: cs, sep =>
    if c = sep then 0
    else if Index cs sep < 0 then -1 else Index cs sep + 1

/-- `strings.LastIndex(s, sep)`: position of the last `sep`, or `-1`. -/
def LastIndex : Str → Char → Int
  | [], _ => -1
  | c :: cs, sep =>
    if 0 ≤ LastIndex cs sep then LastIndex cs sep + 1
    else if c = sep then 0 else -1

/-- `strings.Split(s, sep)`: the pieces of `s` between the occurrences of `sep`. -/
def Split : Str → Char → List Str
  | [], _ => [[]]
  | c :: cs, sep =>
    if c = sep then [] :: Split cs sep
    else
      match Split cs sep with
      | [] => [[c]]
      | t :: ts => (c :: t) :: ts

/-- `strings.ReplaceAll(s, old, new)`. -/
def ReplaceAll (s : Str) (old new : Char) : Str :=
  s.map (fun c => if c = old then new else c)

/-- `strings.HasPrefix(s, p)`. -/
def HasPrefix : Str → Str → Bool
  | _, [] => true
  | [], _ :: _ => false
  | c :: cs, p :: ps => decide (c = p) && HasPrefix cs ps

/-- `strings.HasSuffix(s, p)`. -/
def HasSuffix (s p : Str) : Bool := HasPrefix s.reverse p.reverse

/-- `strings.Contains(s, sep)`. -/
def Contains (s : Str) (sep : Char) : Bool := decide (sep ∈ s)

/-- `strings.Index(s, substr)` for a substring. -/
def IndexStr : Str → Str → Int
  | [], sub => if sub = [] then 0 else -1
  | c :: cs, sub =>
    if HasPrefix (c :: cs) sub then 0
    else if IndexStr cs sub < 0 then -1 else IndexStr cs sub + 1

/-- `strings.ToLower(s)` on ASCII letters. -/
def ToLower (s : Str) : Str := s.map Char.toLower

end strings

/-! ## Package `net/url` (Go 1.15), as called through `url.Parse` -/

namespace url

/-- The `encoding` modes of `net/url`. -/
inductive encoding
  | encodePath
  | encodePathSegment
  | encodeHost
  | encodeZone
  | encodeUserPassword
  | encodeQueryComponent
  | encodeFragment
  deriving DecidableEq

/-- The errors `parse` and its helpers create. -/
inductive ParseErr
  /-- "net/url: invalid control character in URL" -/
  | invalidControlCharacter
  /-- "empty url" -/
  | emptyURL
  /-- "invalid URI for request" -/
  | invalidURIForRequest
  /-- "missing protocol scheme" -/
  | missingProtocolScheme
  /-- "first path segment in URL cannot contain colon" -/
  | firstPathSegmentColon
  /-- "missing ']' in host" -/
  | missingBracket
  /-- "invalid port %q after host" -/
  | invalidPort (colonPort : Str)
  /-- "net/url: invalid userinfo" -/
  | invalidUserinfo
  /-- `EscapeError(s)` -/
  | EscapeError (s : Str)
  /-- `InvalidHostError(s)` -/
  | InvalidHostError (s : Str)
  deriving DecidableEq

/-- `url.Error{Op, URL, Err}`. -/
structure Error where
  Op : Str
  URL : Str
  Err : ParseErr
  deriving DecidableEq

/-- `url.Userinfo`. -/
structure Userinfo where
  username : Str
  password : Str
  passwordSet : Bool
  deriving DecidableEq

/-- `url.URL`, without `RawPath` and `RawFragment` (hints for re-encoding that
no caller here reads). -/
structure URL where
  Scheme : Str := []
  Opaque : Str := []
  User : Option Userinfo := none
  Host : Str := []
  Path : Str := []
  ForceQuery : Bool := false
  RawQuery : Str := []
  Fragment : Str := []
  deriving DecidableEq

/-- `(*Userinfo).Username()`, on a possibly nil receiver. -/
def Userinfo.Username : Option Userinfo → Str
  | none => []
  | some u => u.username

/-- `(*Userinfo).Password()`, on a possibly nil receiver. -/
def Userinfo.Password : Option Userinfo → Str × Bool
  | none => ([], false)
  | some u => (u.password, u.passwordSet)

/-- ASCII letter test used throughout `net/url`. -/
def isAlpha (c : Char) : Bool :=
  decide (('a' ≤ c ∧ c ≤ 'z') ∨ ('A' ≤ c ∧ c ≤ 'Z'))

/-- ASCII digit test. -/
def isDigit (c : Char) : Bool := decide ('0' ≤ c ∧ c ≤ '9')

/-- `ishex(c)`. -/
def ishex (c : Char) : Bool :=
  decide (('0' ≤ c ∧ c ≤ '9') ∨ ('a' ≤ c ∧ c ≤ 'f') ∨ ('A' ≤ c ∧ c ≤ 'F'))

/-- `unhex(c)`. -/
def unhex (c : Char) : Nat :=
  if '0' ≤ c ∧ c ≤ '9' then c.toNat - '0'.toNat
  else if 'a' ≤ c ∧ c ≤ 'f' then c.toNat - 'a'.toNat + 10
  else if 'A' ≤ c ∧ c ≤ 'F' then c.toNat - 'A'.toNat + 10
  else 0

/-- The apostrophe and the double quote, written by code point. -/
def apostrophe : Char := Char.ofNat 39

/-- The double quote. -/
def dquote : Char := Char.ofNat 34

/-- `shouldEscape(c, mode)`. -/
def shouldEscape (c : Char) (mode : encoding) : Bool :=
  if isAlpha c || isDigit c then false
  else if (mode = .encodeHost ∨ mode = .encodeZone) ∧
      c ∈ ['!', '$', '&', apostrophe, '(', ')', '*', '+', ',', ';', '=', ':', '[', ']',
        '<', '>', dquote] then false
  else if c ∈ ['-', '_', '.', '~'] then false
  else if c ∈ ['$', '&', '+', ',', '/', ':', ';', '=', '?', '@'] ∧
      mode = .encodePath then decide (c = '?')
  else if c ∈ ['$', '&', '+', ',', '/', ':', ';', '=', '?', '@'] ∧
      mode = .encodePathSegment then decide (c = '/' ∨ c = ';' ∨ c = ',' ∨ c = '?')
  else if c ∈ ['$', '&', '+', ',', '/', ':', ';', '=', '?', '@'] ∧
      mode = .encodeUserPassword then decide (c = '@' ∨ c = '/' ∨ c = '?' ∨ c = ':')
  else if c ∈ ['$', '&', '+', ',', '/', ':', ';', '=', '?', '@'] ∧
      mode = .encodeQueryComponent then true
  else if c ∈ ['$', '&', '+', ',', '/', ':', ';', '=', '?', '@'] ∧
      mode = .encodeFragment then false
  else if mode = .encodeFragment ∧ c ∈ ['!', '(', ')', '*'] then false
  else true

/-- First loop of `unescape`: checks that every `%` starts a well-formed escape
and, in host and zone mode, that no byte needs escaping. -/
def unescapeCheck (mode : encoding) : Str → Except ParseErr Unit
  | [] => .ok ()
  | c :: rest =>
    if c = '%' then
      match rest with
      | h1 :: h2 :: rest2 =>
        if !ishex h1 || !ishex h2 then .error (.EscapeError [c, h1, h2])
        else if mode = .encodeHost ∧ unhex h1 < 8 ∧ [c, h1, h2] ≠ ['%', '2', '5'] then
          .error (.EscapeError [c, h1, h2])
        else if mode = .encodeZone ∧ [c, h1, h2] ≠ ['%', '2', '5'] ∧
            unhex h1 * 16 + unhex h2 ≠ 32 ∧
            shouldEscape (Char.ofNat (unhex h1 * 16 + unhex h2)) .encodeHost then
          .error (.EscapeError [c, h1, h2])
        else unescapeCheck mode rest2
      | short => .error (.EscapeError (c :: short))
    else if c = '+' then unescapeCheck mode rest
    else if (mode = .encodeHost ∨ mode = .encodeZone) ∧ c.toNat < 128 ∧
        shouldEscape c .encodeHost then
      .error (.InvalidHostError [c])
    else unescapeCheck mode rest

/-- Second loop of `unescape`: replaces each `%XY` by the byte it denotes (and,
in query mode, `+` by a space).  On a string without `%` and `+` it is the
identity, which is Go's early return of `s` itself. -/
def unescapeDecode (mode : encoding) : Str → Str
  | [] => []
  | c :: rest =>
    if c = '%' then
      match rest with
      | h1 :: h2 :: rest2 => Char.ofNat (unhex h1 * 16 + unhex h2) :: unescapeDecode mode rest2
      | _ => []
    else if c = '+' then
      (if mode = .encodeQueryComponent then ' ' else '+') :: unescapeDecode mode rest
    else c :: unescapeDecode mode rest

/-- `unescape(s, mode)`. -/
def unescape (s : Str) (mode : encoding) : Except ParseErr Str :=
  match unescapeCheck mode s with
  | .error e => .error e
  | .ok () => .ok (unescapeDecode mode s)

/-- `split(s, sep, cutc)`: cut `s` at the first `sep`. -/
def split (s : Str) (sep : Char) (cutc : Bool) : Str × Str :=
  if strings.Index s sep < 0 then (s, [])
  else if cutc then
    (s.take (strings.Index s sep).toNat, s.drop ((strings.Index s sep).toNat + 1))
  else (s.take (strings.Index s sep).toNat, s.drop (strings.Index s sep).toNat)

/-- `stringContainsCTLByte(s)`. -/
def stringContainsCTLByte (s : Str) : Bool :=
  s.any (fun b => decide (b.toNat < 32 ∨ b.toNat = 127))

/-- The loop of `getscheme`, at position `i` with `cs` still to read. -/
def getschemeLoop (rawurl : Str) : Nat → Str → Except ParseErr (Str × Str)
  | _, [] => .ok ([], rawurl)
  | i, c :: cs =>
    if isAlpha c then getschemeLoop rawurl (i + 1) cs
    else if isDigit c ∨ c = '+' ∨ c = '-' ∨ c = '.' then
      if i = 0 then .ok ([], rawurl) else getschemeLoop rawurl (i + 1) cs
    else if c = ':' then
      if i = 0 then .error .missingProtocolScheme
      else .ok (rawurl.take i, rawurl.drop (i + 1))
    else .ok ([], rawurl)

/-- `getscheme(rawurl)`. -/
def getscheme (rawurl : Str) : Except ParseErr (Str × Str) :=
  getschemeLoop rawurl 0 rawurl

/-- `validOptionalPort(port)`. -/
def validOptionalPort : Str → Bool
  | [] => true
  | c :: digits => decide (c = ':') && digits.all isDigit

/-- `validUserinfo(s)`. -/
def validUserinfo (s : Str) : Bool :=
  s.all (fun r => isAlpha r || isDigit r ||
    decide (r ∈ ['-', '.', '_', ':', '~', '!', '$', '&', apostrophe, '(', ')', '*', '+',
      ',', ';', '=', '%', '@']))

/-- `parseHost(host)`. -/
def parseHost (host : Str) : Except ParseErr Str :=
  if strings.HasPrefix host ['['] then
    let i := strings.LastIndex host ']'
    if i < 0 then .error .missingBracket
    else
      let colonPort := host.drop (i.toNat + 1)
      if !validOptionalPort colonPort then .error (.invalidPort colonPort)
      else
        let zone := strings.IndexStr (host.take i.toNat) ['%', '2', '5']
        if 0 ≤ zone then
          match unescape (host.take zone.toNat) .encodeHost with
          | .error e => .error e
          | .ok host1 =>
            match unescape ((host.take i.toNat).drop zone.toNat) .encodeZone with
            | .error e => .error e
            | .ok host2 =>
              match unescape (host.drop i.toNat) .encodeHost with
              | .error e => .error e
              | .ok host3 => .ok (host1 ++ host2 ++ host3)
        else unescape host .encodeHost
  else if strings.LastIndex host ':' ≠ -1 ∧
      !validOptionalPort (host.drop (strings.LastIndex host ':').toNat) then
    .error (.invalidPort (host.drop (strings.LastIndex host ':').toNat))
  else unescape host .encodeHost

/-- `parseAuthority(authority)`. -/
def parseAuthority (authority : Str) : Except ParseErr (Option Userinfo × Str) :=
  let i := strings.LastIndex authority '@'
  match (if i < 0 then parseHost authority else parseHost (authority.drop (i.toNat + 1))) with
  | .error e => .error e
  | .ok host =>
    if i < 0 then .ok (none, host)
    else
      let userinfo := authority.take i.toNat
      if !validUserinfo userinfo then .error .invalidUserinfo
      else if !strings.Contains userinfo ':' then
        match unescape userinfo .encodeUserPassword with
        | .error e => .error e
        | .ok userinfo => .ok (some ⟨userinfo, [], false⟩, host)
      else
        match unescape (split userinfo ':' true).1 .encodeUserPassword with
        | .error e => .error e
        | .ok username =>
          match unescape (split userinfo ':' true).2 .encodeUserPassword with
          | .error e => .error e
          | .ok password => .ok (some ⟨username, password, true⟩, host)

/-- The tail of `parse` once scheme and query are split off: authority and path. -/
def parseRest (viaRequest : Bool) (u : URL) (rest : Str) : Except ParseErr URL :=
  if (u.Scheme ≠ [] ∨ (!viaRequest ∧ !strings.HasPrefix rest ['/', '/', '/'])) ∧
      strings.HasPrefix rest ['/', '/'] then
    match parseAuthority (split (rest.drop 2) '/' false).1 with
    | .error e => .error e
    | .ok (user, host) =>
      match unescape (split (rest.drop 2) '/' false).2 .encodePath with
      | .error e => .error e
      | .ok path => .ok { u with User := user, Host := host, Path := path }
  else
    match unescape rest .encodePath with
    | .error e => .error e
    | .ok path => .ok { u with Path := path }

/-- `parse(rawurl, viaRequest)`; `url.Parse` calls it with `viaRequest = false`. -/
def parse (rawurl : Str) (viaRequest : Bool) : Except ParseErr URL :=
  if stringContainsCTLByte rawurl then .error .invalidControlCharacter
  else if rawurl = [] ∧ viaRequest then .error .emptyURL
  else if rawurl = ['*'] then .ok { Path := ['*'] }
  else
    match getscheme rawurl with
    | .error e => .error e
    | .ok (scheme, rest0) =>
      let u : URL :=
        if strings.HasSuffix rest0 ['?'] ∧ strings.Count rest0 '?' = 1 then
          { Scheme := strings.ToLower scheme, ForceQuery := true }
        else { Scheme := strings.ToLower scheme, RawQuery := (split rest0 '?' true).2 }
      let rest : Str :=
        if strings.HasSuffix rest0 ['?'] ∧ strings.Count rest0 '?' = 1 then rest0.dropLast
        else (split rest0 '?' true).1
      if !strings.HasPrefix rest ['/'] then
        if u.Scheme ≠ [] then .ok { u with Opaque := rest }
        else if viaRequest then .error .invalidURIForRequest
        else if 0 ≤ strings.Index rest ':' ∧
            (strings.Index rest '/' < 0 ∨ strings.Index rest ':' < strings.Index rest '/') then
          .error .firstPathSegmentColon
        else parseRest viaRequest u rest
      else parseRest viaRequest u rest

/-- `url.Parse(rawurl)`. -/
def Parse (rawurl : Str) : Except Error URL :=
  match parse (split rawurl '#' true).1 false with
  | .error err => .error ⟨"parse".toList, (split rawurl '#' true).1, err⟩
  | .ok u =>
    if (split rawurl '#' true).2 = [] then .ok u
    else
      match unescape (split rawurl '#' true).2 .encodeFragment with
      | .error err => .error ⟨"parse".toList, rawurl, err⟩
      | .ok frag => .ok { u with Fragment := frag }

end url

/-! ## `azure/convert/volume.go` -/

/-- The errors made by `fmt.Errorf` in `escapeKeySlashes` and `volumeURL`, and
the error `url.Parse` hands back through `volumeURL`. -/
inductive URLError
  /-- "invalid URL format: %s" -/
  | invalidURLFormat (rawURL : Str)
  /-- "no share specified in: %s" -/
  | noShareSpecified (rawURL : Str)
  /-- "invalid path URL: %s" -/
  | invalidPathURL (pathURL : Str)
  /-- An error of `url.Parse`. -/
  | urlParse (err : url.Error)
  deriving DecidableEq

/-- The struct `volumeInput`. -/
structure volumeInput where
  name : Str := []
  username : Str := []
  key : Str := []
  share : Str := []
  target : Str := []
  deriving DecidableEq

/-- The sentinel errors of package `errdefs` that `volume.go` wraps. -/
inductive errdefs
  | ErrParsingFailed
  deriving DecidableEq

/-- The four messages `volumeInput.parse` passes to `errors.Wrapf`, each with the
value formatted into it: the text of the inner error, or the receiver `v` as
it stands when the message is built. -/
inductive Message
  /-- "unable to parse volume specification: %s" -/
  | unableToParse (err : URLError)
  /-- "volume specification %q does not include a storage username" -/
  | noUsername (v : volumeInput)
  /-- "volume specification %q does not include a storage key" -/
  | noKey (v : volumeInput)
  /-- "volume specification %q does not include a storage file share" -/
  | noShare (v : volumeInput)
  deriving DecidableEq

/-- The result of `errors.Wrapf(cause, format, args...)`. -/
structure WrappedError where
  cause : errdefs
  message : Message
  deriving DecidableEq

/-- The function `escapeKeySlashes`. -/
def escapeKeySlashes (rawURL : Str) : Except URLError Str :=
  match strings.Split rawURL '@' with
  | [] => .error (.invalidURLFormat rawURL)
  | first :: _ =>
    let userPasswd := strings.ReplaceAll first '/' '_'
    let atIndex := strings.Index rawURL '@'
    if atIndex < 0 then .error (.noShareSpecified rawURL)
    else .ok (userPasswd ++ rawURL.drop atIndex.toNat)

/-- The function `unescapeKey`. -/
def unescapeKey (key : Str) : Str := strings.ReplaceAll key '_' '/'

/-- The string `volumeURL` passes to `url.Parse`, when it gets that far: `none`
is an index out of range on `tokens`. -/
def volumeURLString (pathURL : Str) : Option (Except URLError Str) :=
  match escapeKeySlashes pathURL with
  | .error err => some (.error err)
  | .ok scapedURL =>
    let pathURL := '/' :: '/' :: scapedURL
    let count := strings.Count pathURL ':'
    if count > 2 then some (.error (.invalidPathURL pathURL))
    else if count = 2 then
      let tokens := strings.Split pathURL ':'
      match tokens[0]?, tokens[1]?, tokens[2]? with
      | some t0, some t1, some t2 => some (.ok (t0 ++ ':' :: t1 ++ t2))
      | _, _, _ => none
    else some (.ok pathURL)

/-- The function `volumeURL`. -/
def volumeURL (pathURL : Str) : Option (Except URLError url.URL) :=
  match volumeURLString pathURL with
  | none => none
  | some (.error err) => some (.error err)
  | some (.ok s) =>
    match url.Parse s with
    | .error err => some (.error (.urlParse err))
    | .ok u => some (.ok u)

/-- The method `(*volumeInput).parse`: the receiver after the call and the
returned error (`none` for Go's `nil`). -/
def volumeInput.parse (v : volumeInput) (name : Str) (s : Str) :
    Option (volumeInput × Option WrappedError) :=
  match volumeURL s with
  | none => none
  | some (.error err) => some (v, some ⟨.ErrParsingFailed, .unableToParse err⟩)
  | some (.ok volumeURL) =>
    let v := { v with username := url.Userinfo.Username volumeURL.User }
    if v.username = [] then some (v, some ⟨.ErrParsingFailed, .noUsername v⟩)
    else
      let (key, ok) := url.Userinfo.Password volumeURL.User
      if !ok ∨ key = [] then some (v, some ⟨.ErrParsingFailed, .noKey v⟩)
      else
        let v := { v with key := unescapeKey key, share := volumeURL.Host }
        if v.share = [] then some (v, some ⟨.ErrParsingFailed, .noShare v⟩)
        else
          let v := { v with name := name, target := volumeURL.Path }
          if v.target = [] then
            some ({ v with target := "/run/volumes/".toList ++ v.share }, none)
          else some (v, none)

/-- The package-level constants `GetRunVolumes` reads; they are declared in
another file of package `convert` and are passed in explicitly here. -/
structure Constants where
  azureFileDriverName : Str
  volumeDriveroptsAccountNameKey : Str
  volumeDriveroptsAccountKeyKey : Str
  volumeDriveroptsShareNameKey : Str

/-- A Go `map[string]ν`, as an association list with at most one pair per key,
in order of first insertion. -/
abbrev GoMap (ν : Type) := List (Str × ν)

/-- The assignment `m[k] = v`. -/
def GoMap.set {ν : Type} : GoMap ν → Str → ν → GoMap ν
  | [], k, v => [(k, v)]
  | (k0, v0) :: rest, k, v =>
    if k0 = k then (k, v) :: rest else (k0, v0) :: GoMap.set rest k v

/-- The lookup `m[k]`. -/
def GoMap.get? {ν : Type} : GoMap ν → Str → Option ν
  | [], _ => none
  | (k0, v0) :: rest, k => if k0 = k then some v0 else GoMap.get? rest k

/-- A Go slice `[]α`; `none` is the nil slice. -/
abbrev GoSlice (α : Type) := Option (List α)

/-- The built-in `append(s, x)`. -/
def GoSlice.append {α : Type} : GoSlice α → α → GoSlice α
  | none, x => some [x]
  | some l, x => some (l ++ [x])

/-- The elements of a slice; the nil slice has none. -/
def GoSlice.elems {α : Type} : GoSlice α → List α
  | none => []
  | some l => l

/-- The fields of `types.VolumeConfig` that `GetRunVolumes` sets. -/
structure VolumeConfig where
  Name : Str
  Driver : Str
  DriverOpts : GoMap Str
  deriving DecidableEq

/-- The fields of `types.ServiceVolumeConfig` that `GetRunVolumes` sets
(`Type_` is the field `Type`). -/
structure ServiceVolumeConfig where
  Type_ : Str
  Source : Str
  Target : Str
  deriving DecidableEq

/-- The digit loop of `fmt` for `%d` on a non-negative integer: the decimal
digits of `u` written in front of `acc`. -/
def fmtDigits : Nat → Nat → Str → Str
  | 0, _, acc => acc
  | fuel + 1, u, acc =>
    if u < 10 then Char.ofNat (48 + u) :: acc
    else fmtDigits fuel (u / 10) (Char.ofNat (48 + u % 10) :: acc)

/-- `fmt.Sprintf("%d", u)` for `u ≥ 0`. -/
def fmtInteger (u : Nat) : Str := fmtDigits (u + 1) u []

/-- `fmt.Sprintf("volume-%d", i)`. -/
def volumeName (i : Nat) : Str := "volume-".toList ++ fmtInteger i

/-- The three results of `GetRunVolumes`; `none` stands for `nil`. -/
structure RunVolumes where
  projectVolumes : Option (GoMap VolumeConfig)
  serviceConfigVolumes : GoSlice ServiceVolumeConfig
  err : Option WrappedError
  deriving DecidableEq

/-- The `for i, v := range volumes` loop of `GetRunVolumes`, from index `i` on. -/
def GetRunVolumesLoop (k : Constants) :
    Nat → List Str → GoMap VolumeConfig → GoSlice ServiceVolumeConfig → Option RunVolumes
  | _, [], projectVolumes, serviceConfigVolumes =>
    some ⟨some projectVolumes, serviceConfigVolumes, none⟩
  | i, v :: rest, projectVolumes, serviceConfigVolumes =>
    match volumeInput.parse {} (volumeName i) v with
    | none => none
    | some (_, some err) => some ⟨none, none, some err⟩
    | some (vi, none) =>
      GetRunVolumesLoop k (i + 1) rest
        (GoMap.set projectVolumes vi.name
          { Name := vi.name
            Driver := k.azureFileDriverName
            DriverOpts :=
              GoMap.set (GoMap.set (GoMap.set [] k.volumeDriveroptsAccountNameKey vi.username)
                k.volumeDriveroptsAccountKeyKey vi.key) k.volumeDriveroptsShareNameKey vi.share })
        (GoSlice.append serviceConfigVolumes
          { Type_ := k.azureFileDriverName, Source := vi.name, Target := vi.target })

/-- The function `GetRunVolumes`. -/
def GetRunVolumes (k : Constants) (volumes : List Str) : Option RunVolumes :=
  GetRunVolumesLoop k 0 volumes [] none

/-! ## Character classes used to state the properties -/

/-- An ASCII letter or digit. -/
def isAlnum (c : Char) : Bool := url.isAlpha c || url.isDigit c

/-- An ASCII letter, a digit or `/`. -/
def isAlnumSlash (c : Char) : Bool := isAlnum c || decide (c = '/')

/-- An ASCII letter, a digit, `/` or `_`. -/
def isAlnumSlashUnderscore (c : Char) : Bool := isAlnumSlash c || decide (c = '_')

/-- A character of an escaped `username:key` part: letter, digit, `:` or `_`. -/
def isUserinfoChar (c : Char) : Bool := isAlnum c || decide (c = ':') || decide (c = '_')

/-- A letter, a digit or `:`. -/
def isAlnumColon (c : Char) : Bool := isAlnum c || decide (c = ':')

/-- A character of the strings the statements below hand to `url.Parse`: letter,
digit, `:`, `_`, `@` or `/`. -/
def isSpecChar (c : Char) : Bool :=
  isAlnum c || decide (c = ':') || decide (c = '_') || decide (c = '@') || decide (c = '/')

/-! ## Specification of the removal of one separator -/

/-- Specification, in the words of the property it states: `s` with exactly its
occurrence number `n` (counted from 0) of `sep` deleted, every other character
kept in order.  `deleteOccurrence sep 1 s` is `s` without its second `sep`. -/
def deleteOccurrence (sep : Char) : Nat → Str → Str
  | _, [] => []
  | 0, c :: cs => if c = sep then cs else c :: deleteOccurrence sep 0 cs
  | n + 1, c :: cs =>
    if c = sep then c :: deleteOccurrence sep n cs else c :: deleteOccurrence sep (n + 1) cs

end Volume

/-! ## Facts about the `strings` model -/

namespace Volume

namespace strings

theorem Index_of_not_mem {sep : Char} : ∀ {s : Str}, sep ∉ s → Index s sep = -1
  | [], _ => rfl
  | c :: cs, h => by
    have hc : c ≠ sep := fun e => h (e ▸ List.mem_cons_self _ _)
    have ih := Index_of_not_mem (s := cs) (fun m => h (List.mem_cons_of_mem _ m))
    simp [Index, hc, ih]

theorem Index_append_cons {sep : Char} (b : Str) :
    ∀ {a : Str}, sep ∉ a → Index (a ++ sep :: b) sep = a.length
  | [], _ => by simp [Index]
  | c :: cs, h => by
    have hc : c ≠ sep := fun e => h (e ▸ List.mem_cons_self _ _)
    have ih := Index_append_cons b (a := cs) (fun m => h (List.mem_cons_of_mem _ m))
    have hlt : ¬ ((cs.length : Int) < 0) := by omega
    show Index (c :: (cs ++ sep :: b)) sep = _
    simp only [Index, hc, if_false, List.length_cons]
    rw [ih, if_neg hlt]
    push_cast
    rfl

theorem Index_nonneg_of_mem {sep : Char} : ∀ {s : Str}, sep ∈ s → 0 ≤ Index s sep
  | c :: cs, h => by
    by_cases hc : c = sep
    · simp [Index, hc]
    · have ih := Index_nonneg_of_mem (s := cs) (by simpa [Ne.symm hc] using h)
      simp only [Index, hc, if_false]
      split <;> omega

theorem LastIndex_of_not_mem {sep : Char} : ∀ {s : Str}, sep ∉ s → LastIndex s sep = -1
  | [], _ => rfl
  | c :: cs, h => by
    have hc : c ≠ sep := fun e => h (e ▸ List.mem_cons_self _ _)
    have ih := LastIndex_of_not_mem (s := cs) (fun m => h (List.mem_cons_of_mem _ m))
    simp [LastIndex, hc, ih]

theorem LastIndex_append_cons {sep : Char} {b : Str} (hb : sep ∉ b) :
    ∀ (a : Str), LastIndex (a ++ sep :: b) sep = a.length
  | [] => by simp [LastIndex, LastIndex_of_not_mem hb]
  | c :: cs => by
    have ih := LastIndex_append_cons hb cs
    have hle : (0 : Int) ≤ cs.length := by omega
    show LastIndex (c :: (cs ++ sep :: b)) sep = _
    simp only [LastIndex, List.length_cons]
    rw [ih, if_pos hle]
    push_cast
    rfl

theorem Split_of_not_mem {sep : Char} : ∀ {s : Str}, sep ∉ s → Split s sep = [s]
  | [], _ => rfl
  | c :: cs, h => by
    have hc : c ≠ sep := fun e => h (e ▸ List.mem_cons_self _ _)
    have ih := Split_of_not_mem (s := cs) (fun m => h (List.mem_cons_of_mem _ m))
    simp [Split, hc, ih]

theorem Split_ne_nil (sep : Char) : ∀ (s : Str), Split s sep ≠ []
  | [] => by simp [Split]
  | c :: cs => by
    have ih := Split_ne_nil sep cs
    simp only [Split]
    split
    · simp
    · split
      · contradiction
      · simp

theorem Split_append_cons {sep : Char} (b : Str) :
    ∀ {a : Str}, sep ∉ a → Split (a ++ sep :: b) sep = a :: Split b sep
  | [], _ => by simp [Split]
  | c :: cs, h => by
    have hc : c ≠ sep := fun e => h (e ▸ List.mem_cons_self _ _)
    have ih := Split_append_cons b (a := cs) (fun m => h (List.mem_cons_of_mem _ m))
    simp [Split, hc, ih]

theorem Split_length (sep : Char) : ∀ (s : Str), (Split s sep).length = Count s sep + 1
  | [] => by simp [Split, Count]
  | c :: cs => by
    have ih := Split_length sep cs
    simp only [Count] at ih ⊢
    by_cases hc : c = sep
    · subst hc
      simp [Split, ih]
    · simp only [Split, hc, if_false]
      have hne := Split_ne_nil sep cs
      cases hs : Split cs sep with
      | nil => exact absurd hs hne
      | cons t ts =>
        rw [hs] at ih
        simp only [List.length_cons] at ih ⊢
        rw [List.count_cons_of_ne (Ne.symm hc)]
        omega

theorem ReplaceAll_of_not_mem {old new : Char} {s : Str} (h : old ∉ s) :
    ReplaceAll s old new = s := by
  unfold ReplaceAll
  conv_rhs => rw [← List.map_id s]
  apply List.map_congr_left
  intro c hc
  have : c ≠ old := fun e => h (e ▸ hc)
  simp [this]

theorem ReplaceAll_append (a b : Str) (old new : Char) :
    ReplaceAll (a ++ b) old new = ReplaceAll a old new ++ ReplaceAll b old new := by
  simp [ReplaceAll]

theorem HasSuffix_singleton_mem {c : Char} {s : Str} (h : HasSuffix s [c] = true) : c ∈ s := by
  unfold HasSuffix at h
  cases hr : s.reverse with
  | nil => rw [hr] at h; simp [HasPrefix] at h
  | cons x xs =>
    rw [hr] at h
    simp only [List.reverse_cons, List.reverse_nil, List.nil_append, HasPrefix,
      Bool.and_true, decide_eq_true_eq] at h
    have : x ∈ s.reverse := by rw [hr]; exact List.mem_cons_self _ _
    rw [← h]
    exact List.mem_reverse.mp this

end strings

end Volume

/-! ## Facts about the `net/url` model -/

namespace Volume

theorem char_le_iff (a b : Char) : a ≤ b ↔ a.toNat ≤ b.toNat := by
  simp only [Char.le_def, UInt32.le_def, BitVec.le_def, Char.toNat, UInt32.toNat]

theorem isAlnum_toNat {c : Char} (h : isAlnum c = true) :
    (48 ≤ c.toNat ∧ c.toNat ≤ 57) ∨ (65 ≤ c.toNat ∧ c.toNat ≤ 90) ∨
      (97 ≤ c.toNat ∧ c.toNat ≤ 122) := by
  simp only [isAlnum, url.isAlpha, url.isDigit, Bool.or_eq_true, decide_eq_true_eq,
    char_le_iff] at h
  have e1 : ('a' : Char).toNat = 97 := rfl
  have e2 : ('z' : Char).toNat = 122 := rfl
  have e3 : ('A' : Char).toNat = 65 := rfl
  have e4 : ('Z' : Char).toNat = 90 := rfl
  have e5 : ('0' : Char).toNat = 48 := rfl
  have e6 : ('9' : Char).toNat = 57 := rfl
  omega

/-- A character inside a class differs from every character outside it. -/
theorem ne_of_class {p : Char → Bool} {c d : Char} (h : p c = true) (hd : p d = false) :
    c ≠ d := by
  rintro rfl
  rw [h] at hd
  exact Bool.noConfusion hd

/-- A string made of one class contains no character outside it. -/
theorem not_mem_of_class {p : Char → Bool} {s : Str} (h : ∀ c ∈ s, p c = true) {d : Char}
    (hd : p d = false) : d ∉ s :=
  fun m => ne_of_class (h d m) hd rfl

theorem isSpecChar_cases {c : Char} (h : isSpecChar c = true) :
    isAlnum c = true ∨ c = ':' ∨ c = '_' ∨ c = '@' ∨ c = '/' := by
  simpa [isSpecChar, or_assoc] using h

theorem isSpecChar_not_ctl {c : Char} (h : isSpecChar c = true) :
    ¬ (c.toNat < 32 ∨ c.toNat = 127) := by
  rcases isSpecChar_cases h with h | h | h | h | h
  · have := isAlnum_toNat h
    omega
  all_goals subst h; decide

theorem isAlnumColon_shouldEscape {c : Char} (h : isAlnumColon c = true) :
    url.shouldEscape c .encodeHost = false := by
  simp only [isAlnumColon, isAlnum, Bool.or_eq_true, decide_eq_true_eq] at h
  rcases h with h | h
  · simp [url.shouldEscape, h]
  · subst h; decide

namespace url

theorem unescapeCheck_clean (mode : encoding) :
    ∀ (s : Str), (∀ c ∈ s, c ≠ '%' ∧
      ((mode = .encodeHost ∨ mode = .encodeZone) → shouldEscape c .encodeHost = false)) →
      unescapeCheck mode s = .ok ()
  | [], _ => rfl
  | c :: cs, h => by
    have ih := unescapeCheck_clean mode cs (fun d m => h d (List.mem_cons_of_mem _ m))
    obtain ⟨h1, h2⟩ := h c (List.mem_cons_self _ _)
    unfold unescapeCheck
    simp only [h1, if_false, ih]
    by_cases hm : mode = .encodeHost ∨ mode = .encodeZone
    · simp [h2 hm]
    · simp [hm]

theorem unescapeDecode_clean (mode : encoding) :
    ∀ (s : Str), (∀ c ∈ s, c ≠ '%' ∧ c ≠ '+') → unescapeDecode mode s = s
  | [], _ => rfl
  | c :: cs, h => by
    have ih := unescapeDecode_clean mode cs (fun d m => h d (List.mem_cons_of_mem _ m))
    obtain ⟨h1, h2⟩ := h c (List.mem_cons_self _ _)
    unfold unescapeDecode
    simp [h1, h2, ih]

theorem unescape_clean (mode : encoding) (s : Str)
    (h : ∀ c ∈ s, c ≠ '%' ∧ c ≠ '+' ∧
      ((mode = .encodeHost ∨ mode = .encodeZone) → shouldEscape c .encodeHost = false)) :
    unescape s mode = .ok s := by
  unfold unescape
  rw [unescapeCheck_clean mode s (fun c m => ⟨(h c m).1, (h c m).2.2⟩)]
  simp only
  rw [unescapeDecode_clean mode s (fun c m => ⟨(h c m).1, (h c m).2.1⟩)]

theorem split_of_not_mem {sep : Char} {s : Str} (h : sep ∉ s) (cutc : Bool) :
    split s sep cutc = (s, []) := by
  simp [split, strings.Index_of_not_mem h]

theorem split_append_cons {sep : Char} {a : Str} (h : sep ∉ a) (b : Str) :
    split (a ++ sep :: b) sep true = (a, b) := by
  have hlt : ¬ ((a.length : Int) < 0) := by omega
  simp [split, strings.Index_append_cons b h, hlt]

theorem split_append_cons_keep {sep : Char} {a : Str} (h : sep ∉ a) (b : Str) :
    split (a ++ sep :: b) sep false = (a, sep :: b) := by
  have hlt : ¬ ((a.length : Int) < 0) := by omega
  simp [split, strings.Index_append_cons b h, hlt]

end url

end Volume

namespace Volume

namespace url

theorem mem_of_mem_split_fst {s : Str} {sep : Char} {cutc : Bool} {c : Char}
    (h : c ∈ (split s sep cutc).1) : c ∈ s := by
  unfold split at h
  split at h
  · exact h
  · split at h <;> exact List.mem_of_mem_take h

theorem mem_of_mem_split_snd {s : Str} {sep : Char} {cutc : Bool} {c : Char}
    (h : c ∈ (split s sep cutc).2) : c ∈ s := by
  unfold split at h
  split at h
  · cases h
  · split at h <;> exact List.mem_of_mem_drop h

theorem parseHost_plain (host tl : Str) (hhost : ∀ c ∈ host, isAlnum c = true)
    (htl : tl = [] ∨ tl = [':']) : parseHost (host ++ tl) = .ok (host ++ tl) := by
  have hcls : ∀ c ∈ host ++ tl, isAlnumColon c = true := by
    intro c hc
    rcases List.mem_append.mp hc with m | m
    · simp [isAlnumColon, hhost c m]
    · rcases htl with rfl | rfl
      · cases m
      · simp only [List.mem_singleton] at m
        subst m
        decide
  have hpre : strings.HasPrefix (host ++ tl) ['['] = false := by
    cases hh : host ++ tl with
    | nil => rfl
    | cons x xs =>
      have hx : isAlnumColon x = true := hcls x (by rw [hh]; exact List.mem_cons_self _ _)
      have hne : x ≠ '[' := ne_of_class hx (by decide)
      simp [strings.HasPrefix, hne]
  have hun : unescape (host ++ tl) .encodeHost = .ok (host ++ tl) :=
    unescape_clean _ _ (fun c m => ⟨ne_of_class (hcls c m) (by decide),
      ne_of_class (hcls c m) (by decide), fun _ => isAlnumColon_shouldEscape (hcls c m)⟩)
  have hport : ¬ (strings.LastIndex (host ++ tl) ':' ≠ -1 ∧
      (!validOptionalPort ((host ++ tl).drop (strings.LastIndex (host ++ tl) ':').toNat)) = true) := by
    rcases htl with rfl | rfl
    · have hno : ':' ∉ host := not_mem_of_class hhost (by decide)
      simp [strings.LastIndex_of_not_mem hno]
    · rw [strings.LastIndex_append_cons (by simp)]
      simp [validOptionalPort]
  unfold parseHost
  rw [hpre]
  simp only [Bool.false_eq_true, if_false]
  rw [if_neg hport, hun]

theorem validUserinfo_plain {ui : Str} (hui : ∀ c ∈ ui, isUserinfoChar c = true) :
    validUserinfo ui = true := by
  unfold validUserinfo
  rw [List.all_eq_true]
  intro c hc
  have h := hui c hc
  simp only [isUserinfoChar, isAlnum, Bool.or_eq_true, decide_eq_true_eq] at h
  rcases h with (h | h) | h
  · simp only [Bool.or_eq_true] at h ⊢
    exact Or.inl h
  · subst h; decide
  · subst h; decide

theorem unescape_userinfo {s : Str} (hs : ∀ c ∈ s, isUserinfoChar c = true) :
    unescape s .encodeUserPassword = .ok s :=
  unescape_clean _ _ (fun c m => ⟨ne_of_class (hs c m) (by decide),
    ne_of_class (hs c m) (by decide), fun hm => by simp at hm⟩)

theorem parseAuthority_plain (ui hostFull : Str) (hui : ∀ c ∈ ui, isUserinfoChar c = true)
    (hat : '@' ∉ hostFull) (hh : parseHost hostFull = .ok hostFull) :
    parseAuthority (ui ++ '@' :: hostFull) =
      .ok (some (if ':' ∈ ui then ⟨(split ui ':' true).1, (split ui ':' true).2, true⟩
        else ⟨ui, [], false⟩), hostFull) := by
  have hlt : ¬ ((ui.length : Int) < 0) := by omega
  unfold parseAuthority
  simp only [strings.LastIndex_append_cons hat, hlt, if_false, Int.toNat_ofNat]
  have hdrop : (ui ++ '@' :: hostFull).drop (ui.length + 1) = hostFull := by
    rw [List.drop_append_eq_append_drop]
    simp
  have htake : (ui ++ '@' :: hostFull).take ui.length = ui := by
    rw [List.take_append_eq_append_take]
    simp
  rw [hdrop, htake, hh]
  simp only [validUserinfo_plain hui, Bool.not_true, Bool.false_eq_true, if_false,
    strings.Contains]
  by_cases hc : ':' ∈ ui
  · have h1 : unescape (split ui ':' true).1 .encodeUserPassword = .ok (split ui ':' true).1 :=
      unescape_userinfo (fun c m => hui c (mem_of_mem_split_fst m))
    have h2 : unescape (split ui ':' true).2 .encodeUserPassword = .ok (split ui ':' true).2 :=
      unescape_userinfo (fun c m => hui c (mem_of_mem_split_snd m))
    simp [hc, h1, h2]
  · simp [hc, unescape_userinfo hui]

end url

end Volume

namespace Volume

namespace url

theorem getscheme_slash (rest : Str) : getscheme ('/' :: rest) = .ok ([], '/' :: rest) := by
  rfl

theorem HasSuffix_question_false {s : Str} (h : '?' ∉ s) : strings.HasSuffix s ['?'] = false := by
  cases hs : strings.HasSuffix s ['?'] with
  | false => rfl
  | true => exact absurd (strings.HasSuffix_singleton_mem hs) h

/-- What `parse` does on a string that starts with `/` and has no control
character and no `?`: it goes straight to the authority and path. -/
theorem parse_slash (rest : Str) (hctl : stringContainsCTLByte ('/' :: rest) = false)
    (hq : '?' ∉ rest) :
    parse ('/' :: rest) false = parseRest false {} ('/' :: rest) := by
  have hq2 : '?' ∉ '/' :: rest := by
    intro m
    rcases List.mem_cons.mp m with e | m
    · exact absurd e (by decide)
    · exact hq m
  unfold parse
  rw [hctl, getscheme_slash]
  simp only [Bool.false_eq_true, if_false, HasSuffix_question_false hq2, false_and,
    split_of_not_mem hq2, strings.ToLower, List.map_nil]
  simp [strings.HasPrefix]

/-- `url.Parse` on `//userinfo@host[:]path` built from letters, digits, `:` and
`_` in the userinfo, letters and digits in the host, and an empty path or one
that starts with `/`. -/
theorem Parse_plain (ui host tl path : Str)
    (hui : ∀ c ∈ ui, isUserinfoChar c = true)
    (hhost : ∀ c ∈ host, isAlnum c = true)
    (htl : tl = [] ∨ tl = [':'])
    (hpath : path = [] ∨ ∃ p, path = '/' :: p ∧ ∀ c ∈ p, isAlnumSlash c = true) :
    Parse ('/' :: '/' :: (ui ++ '@' :: (host ++ tl ++ path))) =
      .ok { User := some (if ':' ∈ ui then
              ⟨(split ui ':' true).1, (split ui ':' true).2, true⟩ else ⟨ui, [], false⟩)
            Host := host ++ tl
            Path := path } := by
  have hui2 : ∀ c ∈ ui, isSpecChar c = true := by
    intro c m
    have h := hui c m
    simp only [isUserinfoChar, Bool.or_eq_true] at h
    simp only [isSpecChar, Bool.or_eq_true]
    tauto
  have hhf : ∀ c ∈ host ++ tl, isAlnumColon c = true := by
    intro c hc
    rcases List.mem_append.mp hc with m | m
    · simp [isAlnumColon, hhost c m]
    · rcases htl with rfl | rfl
      · cases m
      · simp only [List.mem_singleton] at m
        subst m
        decide
  have hhf2 : ∀ c ∈ host ++ tl, isSpecChar c = true := by
    intro c m
    have h := hhf c m
    simp only [isAlnumColon, Bool.or_eq_true] at h
    simp only [isSpecChar, Bool.or_eq_true]
    tauto
  have hp : ∀ c ∈ path, isAlnumSlash c = true := by
    rcases hpath with rfl | ⟨p, rfl, hp⟩
    · intro c m
      cases m
    · intro c m
      rcases List.mem_cons.mp m with e | m
      · subst e
        decide
      · exact hp c m
  have hp2 : ∀ c ∈ path, isSpecChar c = true := by
    intro c m
    have h := hp c m
    simp only [isAlnumSlash, Bool.or_eq_true] at h
    simp only [isSpecChar, Bool.or_eq_true]
    tauto
  have hall : ∀ c ∈ '/' :: '/' :: (ui ++ '@' :: (host ++ tl ++ path)), isSpecChar c = true := by
    intro c m
    simp only [List.mem_cons, List.mem_append] at m
    rcases m with e | e | m | e | m | m
    · subst e; decide
    · subst e; decide
    · exact hui2 c m
    · subst e; decide
    · exact hhf2 c (List.mem_append.mpr m)
    · exact hp2 c m
  have hhash : '#' ∉ '/' :: '/' :: (ui ++ '@' :: (host ++ tl ++ path)) :=
    not_mem_of_class hall (by decide)
  have hq : '?' ∉ '/' :: (ui ++ '@' :: (host ++ tl ++ path)) :=
    not_mem_of_class (fun c m => hall c (List.mem_cons_of_mem _ m)) (by decide)
  have hctl : stringContainsCTLByte ('/' :: '/' :: (ui ++ '@' :: (host ++ tl ++ path))) =
      false := by
    unfold stringContainsCTLByte
    rw [List.any_eq_false]
    intro c m
    simpa using isSpecChar_not_ctl (hall c m)
  have h3 : strings.HasPrefix ('/' :: '/' :: (ui ++ '@' :: (host ++ tl ++ path)))
      ['/', '/', '/'] = false := by
    cases ui with
    | nil => simp [strings.HasPrefix]
    | cons x xs =>
      have hx : x ≠ '/' := ne_of_class (hui x (List.mem_cons_self _ _)) (by decide)
      simp [strings.HasPrefix, hx]
  have hslash_ui : '/' ∉ ui := not_mem_of_class hui (by decide)
  have hslash_hf : '/' ∉ host ++ tl := not_mem_of_class hhf (by decide)
  have hat : '@' ∉ host ++ tl := not_mem_of_class hhf (by decide)
  have hauth : '/' ∉ ui ++ '@' :: (host ++ tl) := by
    intro m
    simp only [List.mem_append, List.mem_cons] at m
    rcases m with m | e | m
    · exact hslash_ui m
    · exact absurd e (by decide)
    · exact hslash_hf (List.mem_append.mpr m)
  have hsp : split (ui ++ '@' :: (host ++ tl ++ path)) '/' false =
      (ui ++ '@' :: (host ++ tl), path) := by
    rcases hpath with rfl | ⟨p, rfl, -⟩
    · simpa using split_of_not_mem hauth false
    · have := split_append_cons_keep hauth p
      simpa using this
  have hpu : unescape path .encodePath = .ok path :=
    unescape_clean _ _ (fun c m => ⟨ne_of_class (hp c m) (by decide),
      ne_of_class (hp c m) (by decide), fun hm => by simp at hm⟩)
  unfold Parse
  rw [split_of_not_mem hhash, parse_slash _ hctl hq]
  unfold parseRest
  rw [h3]
  simp only [strings.HasPrefix, List.drop_succ_cons, List.drop_zero, hsp,
    parseAuthority_plain ui (host ++ tl) hui hat (parseHost_plain host tl hhost htl), hpu]
  simp

end url

end Volume

/-! ## Facts about `escapeKeySlashes`, `unescapeKey` and `volumeURL` -/

namespace Volume

theorem Count_of_not_mem {s : Str} {sep : Char} (h : sep ∉ s) : strings.Count s sep = 0 :=
  List.count_eq_zero_of_not_mem h

theorem Count_append (a b : Str) (sep : Char) :
    strings.Count (a ++ b) sep = strings.Count a sep + strings.Count b sep :=
  List.count_append _ _ _

theorem Count_cons_self (s : Str) (sep : Char) :
    strings.Count (sep :: s) sep = strings.Count s sep + 1 :=
  List.count_cons_self _ _

theorem Count_cons_of_ne {c sep : Char} (h : c ≠ sep) (s : Str) :
    strings.Count (c :: s) sep = strings.Count s sep :=
  List.count_cons_of_ne (Ne.symm h) _

theorem Count_ReplaceAll (s : Str) {old new sep : Char} (h1 : old ≠ sep) (h2 : new ≠ sep) :
    strings.Count (strings.ReplaceAll s old new) sep = strings.Count s sep := by
  induction s with
  | nil => rfl
  | cons c cs ih =>
    simp only [strings.Count, strings.ReplaceAll, List.map_cons] at ih ⊢
    by_cases hc : c = old
    · subst hc
      rw [if_pos rfl, List.count_cons_of_ne (Ne.symm h2), List.count_cons_of_ne (Ne.symm h1), ih]
    · rw [if_neg hc]
      by_cases hs : c = sep
      · subst hs
        rw [List.count_cons_self, List.count_cons_self, ih]
      · rw [List.count_cons_of_ne (Ne.symm hs), List.count_cons_of_ne (Ne.symm hs), ih]

theorem escapeKeySlashes_of_not_mem {s : Str} (h : '@' ∉ s) :
    escapeKeySlashes s = .error (.noShareSpecified s) := by
  simp [escapeKeySlashes, strings.Split_of_not_mem h, strings.Index_of_not_mem h]

theorem escapeKeySlashes_append_cons {up : Str} (h : '@' ∉ up) (rest : Str) :
    escapeKeySlashes (up ++ '@' :: rest) =
      .ok (strings.ReplaceAll up '/' '_' ++ '@' :: rest) := by
  have hlt : ¬ ((up.length : Int) < 0) := by omega
  have hdrop : (up ++ '@' :: rest).drop up.length = '@' :: rest := by
    rw [List.drop_append_eq_append_drop]
    simp
  simp [escapeKeySlashes, strings.Split_append_cons rest h, strings.Index_append_cons rest h,
    hlt, hdrop]

theorem unescapeKey_ReplaceAll {s : Str} (h : '_' ∉ s) :
    unescapeKey (strings.ReplaceAll s '/' '_') = s := by
  induction s with
  | nil => rfl
  | cons c cs ih =>
    have hc : c ≠ '_' := fun e => h (e ▸ List.mem_cons_self _ _)
    have ih2 := ih (fun m => h (List.mem_cons_of_mem _ m))
    simp only [unescapeKey, strings.ReplaceAll, List.map_cons] at ih2 ⊢
    rw [ih2]
    by_cases hs : c = '/'
    · subst hs
      rfl
    · simp [hs, hc]

/-- The escaped key is made of letters, digits and `_`. -/
theorem ReplaceAll_key_class {key : Str} (hkey : ∀ c ∈ key, isAlnumSlashUnderscore c = true) :
    ∀ c ∈ strings.ReplaceAll key '/' '_', isUserinfoChar c = true := by
  intro c m
  simp only [strings.ReplaceAll, List.mem_map] at m
  obtain ⟨d, hd, rfl⟩ := m
  by_cases hs : d = '/'
  · subst hs
    decide
  · have h := hkey d hd
    simp only [isAlnumSlashUnderscore, isAlnumSlash, Bool.or_eq_true, decide_eq_true_eq] at h
    rw [if_neg hs]
    rcases h with (h | h) | h
    · simp [isUserinfoChar, h]
    · exact absurd h hs
    · subst h
      decide

theorem isAlnum_userinfo {s : Str} (h : ∀ c ∈ s, isAlnum c = true) :
    ∀ c ∈ s, isUserinfoChar c = true := by
  intro c m
  simp [isUserinfoChar, h c m]

theorem isAlnumSlash_underscore {s : Str} (h : ∀ c ∈ s, isAlnumSlash c = true) :
    ∀ c ∈ s, isAlnumSlashUnderscore c = true := by
  intro c m
  simp [isAlnumSlashUnderscore, h c m]

theorem isAlnum_slash {s : Str} (h : ∀ c ∈ s, isAlnum c = true) :
    ∀ c ∈ s, isAlnumSlash c = true := by
  intro c m
  simp [isAlnumSlash, h c m]

end Volume

namespace Volume

theorem Split_three {x y z : Str} {sep : Char} (hx : sep ∉ x) (hy : sep ∉ y) (hz : sep ∉ z) :
    strings.Split (x ++ sep :: (y ++ sep :: z)) sep = [x, y, z] := by
  rw [strings.Split_append_cons _ hx, strings.Split_append_cons _ hy, strings.Split_of_not_mem hz]

theorem volumeURLString_of_escaped_lt {s e : Str} (he : escapeKeySlashes s = .ok e)
    (hc : strings.Count e ':' < 2) : volumeURLString s = some (.ok ('/' :: '/' :: e)) := by
  have h1 : strings.Count ('/' :: '/' :: e) ':' = strings.Count e ':' := by
    rw [Count_cons_of_ne (by decide), Count_cons_of_ne (by decide)]
  unfold volumeURLString
  rw [he]
  simp only [h1]
  rw [if_neg (by omega), if_neg (by omega)]

theorem volumeURLString_of_escaped_gt {s e : Str} (he : escapeKeySlashes s = .ok e)
    (hc : 2 < strings.Count e ':') :
    volumeURLString s = some (.error (.invalidPathURL ('/' :: '/' :: e))) := by
  have h1 : strings.Count ('/' :: '/' :: e) ':' = strings.Count e ':' := by
    rw [Count_cons_of_ne (by decide), Count_cons_of_ne (by decide)]
  unfold volumeURLString
  rw [he]
  simp only [h1]
  rw [if_pos (by omega)]

theorem volumeURLString_of_escaped_two {s x y z : Str}
    (he : escapeKeySlashes s = .ok (x ++ ':' :: (y ++ ':' :: z)))
    (hx : ':' ∉ x) (hy : ':' ∉ y) (hz : ':' ∉ z) :
    volumeURLString s = some (.ok ('/' :: '/' :: (x ++ ':' :: (y ++ z)))) := by
  have hx2 : ':' ∉ '/' :: '/' :: x := by
    intro m
    simp only [List.mem_cons] at m
    rcases m with e | e | m
    · exact absurd e (by decide)
    · exact absurd e (by decide)
    · exact hx m
  have h1 : strings.Count ('/' :: '/' :: (x ++ ':' :: (y ++ ':' :: z))) ':' = 2 := by
    rw [Count_cons_of_ne (by decide), Count_cons_of_ne (by decide), Count_append,
      Count_cons_self, Count_append, Count_cons_self, Count_of_not_mem hx, Count_of_not_mem hy,
      Count_of_not_mem hz]
  have h2 : strings.Split ('/' :: '/' :: (x ++ ':' :: (y ++ ':' :: z))) ':' =
      ['/' :: '/' :: x, y, z] := Split_three hx2 hy hz
  unfold volumeURLString
  rw [he]
  simp only [h1, h2]
  simp

/-- The URL `volumeURL` returns for `user:key@share` and `user:key@share:/p`. -/
theorem volumeURL_with_key (user key share tgt path : Str)
    (huser : ∀ c ∈ user, isAlnum c = true)
    (hkey : ∀ c ∈ key, isAlnumSlashUnderscore c = true)
    (hshare : ∀ c ∈ share, isAlnum c = true)
    (htgt : (tgt = [] ∧ path = []) ∨
      ∃ p, tgt = ':' :: '/' :: p ∧ path = '/' :: p ∧ ∀ c ∈ p, isAlnumSlash c = true) :
    volumeURL (user ++ ':' :: (key ++ '@' :: (share ++ tgt))) =
      some (.ok { User := some ⟨user, strings.ReplaceAll key '/' '_', true⟩
                  Host := share
                  Path := path }) := by
  have hu_at : '@' ∉ user := not_mem_of_class huser (by decide)
  have hu_sl : '/' ∉ user := not_mem_of_class huser (by decide)
  have hu_co : ':' ∉ user := not_mem_of_class huser (by decide)
  have hk_at : '@' ∉ key := not_mem_of_class hkey (by decide)
  have hk' := ReplaceAll_key_class hkey
  have hk'_co : ':' ∉ strings.ReplaceAll key '/' '_' := by
    intro m
    simp only [strings.ReplaceAll, List.mem_map] at m
    obtain ⟨d, hd, e⟩ := m
    have hd2 : d ≠ ':' := ne_of_class (hkey d hd) (by decide)
    by_cases hs : d = '/'
    · rw [if_pos hs] at e
      exact absurd e (by decide)
    · rw [if_neg hs] at e
      exact hd2 e
  have hs_co : ':' ∉ share := not_mem_of_class hshare (by decide)
  have hup : '@' ∉ user ++ ':' :: key := by
    intro m
    simp only [List.mem_append, List.mem_cons] at m
    rcases m with m | e | m
    · exact hu_at m
    · exact absurd e (by decide)
    · exact hk_at m
  have hesc : escapeKeySlashes (user ++ ':' :: (key ++ '@' :: (share ++ tgt))) =
      .ok (user ++ ':' :: (strings.ReplaceAll key '/' '_' ++ '@' :: (share ++ tgt))) := by
    have h := escapeKeySlashes_append_cons hup (share ++ tgt)
    rw [strings.ReplaceAll_append, strings.ReplaceAll_of_not_mem hu_sl] at h
    simpa [strings.ReplaceAll] using h
  have hui : ∀ c ∈ user ++ ':' :: strings.ReplaceAll key '/' '_', isUserinfoChar c = true := by
    intro c m
    simp only [List.mem_append, List.mem_cons] at m
    rcases m with m | e | m
    · exact isAlnum_userinfo huser c m
    · subst e
      decide
    · exact hk' c m
  have hcolon : ':' ∈ user ++ ':' :: strings.ReplaceAll key '/' '_' := by simp
  have hsplit := url.split_append_cons hu_co (strings.ReplaceAll key '/' '_')
  have hP := fun hp => url.Parse_plain (user ++ ':' :: strings.ReplaceAll key '/' '_') share []
    path hui hshare (Or.inl rfl) hp
  simp only [hcolon, if_true, hsplit, List.append_nil, List.append_assoc,
    List.cons_append] at hP
  unfold volumeURL
  rcases htgt with ⟨rfl, rfl⟩ | ⟨p, rfl, rfl, hp⟩
  · have hstr := volumeURLString_of_escaped_lt hesc (by
      rw [Count_append, Count_cons_self, Count_append, Count_cons_of_ne (by decide),
        Count_append, Count_of_not_mem hu_co, Count_of_not_mem hk'_co, Count_of_not_mem hs_co]
      simp [strings.Count])
    rw [hstr]
    simp only [List.append_nil] at hP ⊢
    rw [hP (by simp)]
  · have hy : ':' ∉ strings.ReplaceAll key '/' '_' ++ '@' :: share := by
      intro m
      simp only [List.mem_append, List.mem_cons] at m
      rcases m with m | e | m
      · exact hk'_co m
      · exact absurd e (by decide)
      · exact hs_co m
    have hz : ':' ∉ '/' :: p := not_mem_of_class (p := isAlnumSlash) (by
      intro c m
      rcases List.mem_cons.mp m with e | m
      · subst e
        decide
      · exact hp c m) (by decide)
    have hesc2 : escapeKeySlashes (user ++ ':' :: (key ++ '@' :: (share ++ ':' :: '/' :: p))) =
        .ok (user ++ ':' :: ((strings.ReplaceAll key '/' '_' ++ '@' :: share) ++
          ':' :: ('/' :: p))) := by
      rw [hesc]
      simp
    rw [volumeURLString_of_escaped_two hesc2 hu_co hy hz]
    have hP2 := hP (Or.inr ⟨p, rfl, hp⟩)
    simp only [List.append_assoc, List.cons_append] at hP2 ⊢
    rw [hP2]

end Volume

namespace Volume

/-- The URL `volumeURL` returns for `user@share` and `user@share:/p`: with a
single `:` nothing is removed and the `:` stays at the end of the host. -/
theorem volumeURL_without_key (user share tgt tl path : Str)
    (huser : ∀ c ∈ user, isAlnum c = true)
    (hshare : ∀ c ∈ share, isAlnum c = true)
    (htgt : (tgt = [] ∧ tl = [] ∧ path = []) ∨
      ∃ p, tgt = ':' :: '/' :: p ∧ tl = [':'] ∧ path = '/' :: p ∧
        ∀ c ∈ p, isAlnumSlash c = true) :
    volumeURL (user ++ '@' :: (share ++ tgt)) =
      some (.ok { User := some ⟨user, [], false⟩
                  Host := share ++ tl
                  Path := path }) := by
  have hu_at : '@' ∉ user := not_mem_of_class huser (by decide)
  have hu_sl : '/' ∉ user := not_mem_of_class huser (by decide)
  have hu_co : ':' ∉ user := not_mem_of_class huser (by decide)
  have hs_co : ':' ∉ share := not_mem_of_class hshare (by decide)
  have hesc : escapeKeySlashes (user ++ '@' :: (share ++ tgt)) =
      .ok (user ++ '@' :: (share ++ tgt)) := by
    have h := escapeKeySlashes_append_cons hu_at (share ++ tgt)
    rwa [strings.ReplaceAll_of_not_mem hu_sl] at h
  have hP := fun htl hp => url.Parse_plain user share tl path (isAlnum_userinfo huser) hshare
    htl hp
  simp only [hu_co, if_false] at hP
  unfold volumeURL
  rcases htgt with ⟨rfl, rfl, rfl⟩ | ⟨p, rfl, rfl, rfl, hp⟩
  · have hstr := volumeURLString_of_escaped_lt hesc (by
      rw [Count_append, Count_cons_of_ne (by decide), Count_append, Count_of_not_mem hu_co,
        Count_of_not_mem hs_co]
      simp [strings.Count])
    rw [hstr]
    have hP2 := hP (by simp) (by simp)
    simp only [List.append_nil] at hP2 ⊢
    rw [hP2]
  · have hp_co : ':' ∉ p := not_mem_of_class hp (by decide)
    have hstr := volumeURLString_of_escaped_lt hesc (by
      rw [Count_append, Count_cons_of_ne (by decide), Count_append, Count_cons_self,
        Count_cons_of_ne (by decide), Count_of_not_mem hu_co, Count_of_not_mem hs_co,
        Count_of_not_mem hp_co]
      omega)
    rw [hstr]
    have hP2 := hP (by simp) (Or.inr ⟨p, rfl, hp⟩)
    simp only [List.append_assoc, List.cons_append, List.nil_append] at hP2 ⊢
    rw [hP2]

theorem ReplaceAll_eq_nil {s : Str} {old new : Char} :
    strings.ReplaceAll s old new = [] ↔ s = [] := by
  simp [strings.ReplaceAll]

/-- What `parse` does on `user:key@share` and `user:key@share:/p`, each of the
three parts possibly empty. -/
theorem parse_with_key (v : volumeInput) (name user key share tgt path : Str)
    (huser : ∀ c ∈ user, isAlnum c = true)
    (hkey : ∀ c ∈ key, isAlnumSlashUnderscore c = true)
    (hshare : ∀ c ∈ share, isAlnum c = true)
    (htgt : (tgt = [] ∧ path = []) ∨
      ∃ p, tgt = ':' :: '/' :: p ∧ path = '/' :: p ∧ ∀ c ∈ p, isAlnumSlash c = true) :
    volumeInput.parse v name (user ++ ':' :: (key ++ '@' :: (share ++ tgt))) =
      if user = [] then
        some ({ v with username := [] },
          some ⟨.ErrParsingFailed, .noUsername { v with username := [] }⟩)
      else if key = [] then
        some ({ v with username := user },
          some ⟨.ErrParsingFailed, .noKey { v with username := user }⟩)
      else if share = [] then
        some ({ v with username := user, key := unescapeKey (strings.ReplaceAll key '/' '_'),
                       share := [] },
          some ⟨.ErrParsingFailed, .noShare
            { v with username := user, key := unescapeKey (strings.ReplaceAll key '/' '_'),
                     share := [] }⟩)
      else
        some ({ name := name, username := user,
                key := unescapeKey (strings.ReplaceAll key '/' '_'), share := share,
                target := if path = [] then "/run/volumes/".toList ++ share else path }, none) := by
  unfold volumeInput.parse
  rw [volumeURL_with_key user key share tgt path huser hkey hshare htgt]
  simp only [url.Userinfo.Username, url.Userinfo.Password]
  by_cases h1 : user = []
  · simp [h1]
  · by_cases h2 : key = []
    · simp [h1, h2, strings.ReplaceAll]
    · have h2' : strings.ReplaceAll key '/' '_' ≠ [] := fun e => h2 (ReplaceAll_eq_nil.mp e)
      by_cases h3 : share = []
      · simp [h1, h2, h2', h3]
      · by_cases h4 : path = []
        · simp [h1, h2, h2', h3, h4]
        · simp [h1, h2, h2', h3, h4]

/-- What `parse` does on `user@share` and `user@share:/p`. -/
theorem parse_without_key (v : volumeInput) (name user share tgt : Str)
    (huser : ∀ c ∈ user, isAlnum c = true)
    (hshare : ∀ c ∈ share, isAlnum c = true)
    (htgt : tgt = [] ∨ ∃ p, tgt = ':' :: '/' :: p ∧ ∀ c ∈ p, isAlnumSlash c = true) :
    volumeInput.parse v name (user ++ '@' :: (share ++ tgt)) =
      if user = [] then
        some ({ v with username := [] },
          some ⟨.ErrParsingFailed, .noUsername { v with username := [] }⟩)
      else
        some ({ v with username := user },
          some ⟨.ErrParsingFailed, .noKey { v with username := user }⟩) := by
  have hurl : ∃ tl path, volumeURL (user ++ '@' :: (share ++ tgt)) =
      some (.ok { User := some ⟨user, [], false⟩, Host := share ++ tl, Path := path }) := by
    rcases htgt with rfl | ⟨p, rfl, hp⟩
    · exact ⟨[], [], volumeURL_without_key user share [] [] [] huser hshare (Or.inl ⟨rfl, rfl, rfl⟩)⟩
    · exact ⟨[':'], '/' :: p, volumeURL_without_key user share _ _ _ huser hshare
        (Or.inr ⟨p, rfl, rfl, rfl, hp⟩)⟩
  obtain ⟨tl, path, hurl⟩ := hurl
  unfold volumeInput.parse
  rw [hurl]
  simp only [url.Userinfo.Username, url.Userinfo.Password]
  by_cases h1 : user = []
  · simp [h1]
  · simp [h1]

end Volume

/-! ## The parser: claims about `volumeInput.parse` -/

namespace Volume

theorem escapeKeySlashes_of_mem {s : Str} (h : '@' ∈ s) :
    ∃ up rest, s = up ++ '@' :: rest ∧ '@' ∉ up ∧
      escapeKeySlashes s = .ok (strings.ReplaceAll up '/' '_' ++ '@' :: rest) := by
  obtain ⟨up, rest, hs, hup⟩ := List.eq_append_cons_of_mem h
  exact ⟨up, rest, hs, hup, hs ▸ escapeKeySlashes_append_cons hup rest⟩

theorem unescapeKey_of_isAlnum {key : Str} (hkey : ∀ c ∈ key, isAlnum c = true) :
    unescapeKey (strings.ReplaceAll key '/' '_') = key :=
  unescapeKey_ReplaceAll (not_mem_of_class hkey (by decide))

/-- C1: for every assigned name, all non-empty `user`, `key`, `share` of ASCII
letters and digits and every `p` of ASCII letters, digits and `/`, parsing
`user:key@share:/p` succeeds and sets name to the assigned name, username to
`user`, key to `key`, share to `share` and target to `/p`. -/
theorem C1_parse_full_spec (v : volumeInput) (name user key share p : Str)
    (hu : user ≠ []) (hk : key ≠ []) (hs : share ≠ [])
    (huser : ∀ c ∈ user, isAlnum c = true) (hkey : ∀ c ∈ key, isAlnum c = true)
    (hshare : ∀ c ∈ share, isAlnum c = true) (hp : ∀ c ∈ p, isAlnumSlash c = true) :
    volumeInput.parse v name (user ++ ':' :: (key ++ '@' :: (share ++ ':' :: '/' :: p))) =
      some ({ name := name, username := user, key := key, share := share,
              target := '/' :: p }, none) := by
  rw [parse_with_key v name user key share (':' :: '/' :: p) ('/' :: p) huser
    (isAlnumSlash_underscore (isAlnum_slash hkey)) hshare (Or.inr ⟨p, rfl, rfl, hp⟩)]
  simp [hu, hk, hs, unescapeKey_of_isAlnum hkey]

/-- C1 at `user:key@share:/mnt/a` with the assigned name `volume-0`. -/
theorem C1_parse_full_spec_witness :
    volumeInput.parse {} "volume-0".toList "user:key@share:/mnt/a".toList =
      some ({ name := "volume-0".toList, username := "user".toList, key := "key".toList,
              share := "share".toList, target := "/mnt/a".toList }, none) :=
  C1_parse_full_spec {} "volume-0".toList "user".toList "key".toList "share".toList
    "mnt/a".toList (by decide) (by decide) (by decide) (by decide) (by decide) (by decide)
    (by decide)

/-- C2: for all non-empty `user`, `key`, `share` of ASCII letters and digits,
parsing `user:key@share` (no target part) succeeds with username `user`, key
`key`, share `share` and target `/run/volumes/` followed by `share`. -/
theorem C2_parse_default_target (v : volumeInput) (name user key share : Str)
    (hu : user ≠ []) (hk : key ≠ []) (hs : share ≠ [])
    (huser : ∀ c ∈ user, isAlnum c = true) (hkey : ∀ c ∈ key, isAlnum c = true)
    (hshare : ∀ c ∈ share, isAlnum c = true) :
    volumeInput.parse v name (user ++ ':' :: (key ++ '@' :: share)) =
      some ({ name := name, username := user, key := key, share := share,
              target := "/run/volumes/".toList ++ share }, none) := by
  have h := parse_with_key v name user key share [] [] huser
    (isAlnumSlash_underscore (isAlnum_slash hkey)) hshare (Or.inl ⟨rfl, rfl⟩)
  rw [List.append_nil] at h
  rw [h]
  simp [hu, hk, hs, unescapeKey_of_isAlnum hkey]

/-- C2 at `user:key@share`. -/
theorem C2_parse_default_target_witness :
    volumeInput.parse {} "volume-0".toList "user:key@share".toList =
      some ({ name := "volume-0".toList, username := "user".toList, key := "key".toList,
              share := "share".toList, target := "/run/volumes/share".toList }, none) :=
  C2_parse_default_target {} "volume-0".toList "user".toList "key".toList "share".toList
    (by decide) (by decide) (by decide) (by decide) (by decide) (by decide)

theorem target_path {tgt : Str}
    (htgt : tgt = [] ∨ ∃ p, tgt = ':' :: '/' :: p ∧ ∀ c ∈ p, isAlnumSlash c = true) :
    (tgt = [] ∧ tgt.drop 1 = []) ∨
      ∃ p, tgt = ':' :: '/' :: p ∧ tgt.drop 1 = '/' :: p ∧ ∀ c ∈ p, isAlnumSlash c = true := by
  rcases htgt with rfl | ⟨p, rfl, hp⟩
  · exact Or.inl ⟨rfl, rfl⟩
  · exact Or.inr ⟨p, rfl, rfl, hp⟩

theorem volumeURL_of_string_error {s : Str} {e : URLError}
    (h : volumeURLString s = some (.error e)) : volumeURL s = some (.error e) := by
  simp [volumeURL, h]

theorem parse_of_volumeURL_error (v : volumeInput) (name : Str) {s : Str} {e : URLError}
    (h : volumeURL s = some (.error e)) :
    volumeInput.parse v name s = some (v, some ⟨.ErrParsingFailed, .unableToParse e⟩) := by
  simp [volumeInput.parse, h]

theorem volumeURL_of_not_mem {s : Str} (h : '@' ∉ s) : volumeURL s = some (.error (.noShareSpecified s)) :=
  volumeURL_of_string_error (by simp [volumeURLString, escapeKeySlashes_of_not_mem h])

/-- C5: for every string `s` without `@`, `escapeKeySlashes s` and `volumeURL s`
return an error and `parse` fails with the "unable to parse volume
specification" wrap of `ErrParsingFailed`; the error is the one of
`escapeKeySlashes`, made before any string is handed to `url.Parse`. -/
theorem C5_missing_at_sign (v : volumeInput) (name s : Str) (h : '@' ∉ s) :
    escapeKeySlashes s = .error (.noShareSpecified s) ∧
      volumeURLString s = some (.error (.noShareSpecified s)) ∧
      volumeURL s = some (.error (.noShareSpecified s)) ∧
      volumeInput.parse v name s =
        some (v, some ⟨.ErrParsingFailed, .unableToParse (.noShareSpecified s)⟩) := by
  have h1 := escapeKeySlashes_of_not_mem h
  have h2 : volumeURLString s = some (.error (.noShareSpecified s)) := by
    simp [volumeURLString, h1]
  exact ⟨h1, h2, volumeURL_of_string_error h2,
    parse_of_volumeURL_error v name (volumeURL_of_string_error h2)⟩

/-- C5 at `user:key`. -/
theorem C5_missing_at_sign_witness :
    escapeKeySlashes "user:key".toList = .error (.noShareSpecified "user:key".toList) ∧
      volumeURLString "user:key".toList = some (.error (.noShareSpecified "user:key".toList)) ∧
      volumeURL "user:key".toList = some (.error (.noShareSpecified "user:key".toList)) ∧
      volumeInput.parse {} "volume-0".toList "user:key".toList =
        some ({}, some ⟨.ErrParsingFailed, .unableToParse (.noShareSpecified "user:key".toList)⟩) :=
  C5_missing_at_sign {} "volume-0".toList "user:key".toList (by decide)

/-- C6: for all `key` and `share` of ASCII letters and digits (non-empty or
not), with or without a trailing `:/p` part, parsing `:key@share...` fails
with the error "does not include a storage username". -/
theorem C6_missing_username (v : volumeInput) (name key share tgt : Str)
    (hkey : ∀ c ∈ key, isAlnum c = true) (hshare : ∀ c ∈ share, isAlnum c = true)
    (htgt : tgt = [] ∨ ∃ p, tgt = ':' :: '/' :: p ∧ ∀ c ∈ p, isAlnumSlash c = true) :
    volumeInput.parse v name (':' :: (key ++ '@' :: (share ++ tgt))) =
      some ({ v with username := [] },
        some ⟨.ErrParsingFailed, .noUsername { v with username := [] }⟩) := by
  have h := parse_with_key v name [] key share tgt (tgt.drop 1) (by simp)
    (isAlnumSlash_underscore (isAlnum_slash hkey)) hshare (target_path htgt)
  simpa using h

/-- C6 at `:key@share` . -/
theorem C6_missing_username_witness :
    volumeInput.parse {} "volume-0".toList ":key@share".toList =
      some ({}, some ⟨.ErrParsingFailed, .noUsername {}⟩) :=
  C6_missing_username {} "volume-0".toList "key".toList "share".toList [] (by decide)
    (by decide) (Or.inl rfl)

/-- C7: for every non-empty `user` and every `share` of ASCII letters and digits, parse
fails with the error "does not include a storage key" both when the key is
absent (`user@share`, `user@share:/p`) and when it is empty (`user:@share`,
`user:@share:/p`). -/
theorem C7_missing_key (v : volumeInput) (name user share tgt : Str)
    (huser : ∀ c ∈ user, isAlnum c = true) (hshare : ∀ c ∈ share, isAlnum c = true)
    (hu : user ≠ [])
    (htgt : tgt = [] ∨ ∃ p, tgt = ':' :: '/' :: p ∧ ∀ c ∈ p, isAlnumSlash c = true) :
    volumeInput.parse v name (user ++ '@' :: (share ++ tgt)) =
        some ({ v with username := user },
          some ⟨.ErrParsingFailed, .noKey { v with username := user }⟩) ∧
      volumeInput.parse v name (user ++ ':' :: '@' :: (share ++ tgt)) =
        some ({ v with username := user },
          some ⟨.ErrParsingFailed, .noKey { v with username := user }⟩) := by
  constructor
  · rw [parse_without_key v name user share tgt huser hshare htgt, if_neg hu]
  · have h := parse_with_key v name user [] share tgt (tgt.drop 1) huser (by simp) hshare
      (target_path htgt)
    simpa [hu] using h

/-- C7 at `user@share:/mnt/a` and `user:@share:/mnt/a`. -/
theorem C7_missing_key_witness :
    volumeInput.parse {} "volume-0".toList "user@share:/mnt/a".toList =
        some ({ username := "user".toList },
          some ⟨.ErrParsingFailed, .noKey { username := "user".toList }⟩) ∧
      volumeInput.parse {} "volume-0".toList "user:@share:/mnt/a".toList =
        some ({ username := "user".toList },
          some ⟨.ErrParsingFailed, .noKey { username := "user".toList }⟩) :=
  C7_missing_key {} "volume-0".toList "user".toList "share".toList ":/mnt/a".toList
    (by decide) (by decide) (by decide) (Or.inr ⟨"mnt/a".toList, rfl, by decide⟩)

/-- C8: for all non-empty `user` and `key` of ASCII letters and digits, parse
fails with the error "does not include a storage file share" when the share
is empty, both for `user:key@` and for `user:key@:/p`. -/
theorem C8_missing_share (v : volumeInput) (name user key tgt : Str)
    (huser : ∀ c ∈ user, isAlnum c = true) (hkey : ∀ c ∈ key, isAlnum c = true)
    (hu : user ≠ []) (hk : key ≠ [])
    (htgt : tgt = [] ∨ ∃ p, tgt = ':' :: '/' :: p ∧ ∀ c ∈ p, isAlnumSlash c = true) :
    volumeInput.parse v name (user ++ ':' :: (key ++ '@' :: tgt)) =
      some ({ v with username := user, key := key, share := [] },
        some ⟨.ErrParsingFailed, .noShare { v with username := user, key := key, share := [] }⟩) := by
  have h := parse_with_key v name user key [] tgt (tgt.drop 1) huser
    (isAlnumSlash_underscore (isAlnum_slash hkey)) (by simp) (target_path htgt)
  simpa [hu, hk, unescapeKey_of_isAlnum hkey] using h

/-- C8 at `user:key@` . -/
theorem C8_missing_share_witness :
    volumeInput.parse {} "volume-0".toList "user:key@".toList =
      some ({ username := "user".toList, key := "key".toList },
        some ⟨.ErrParsingFailed, .noShare { username := "user".toList, key := "key".toList }⟩) :=
  C8_missing_share {} "volume-0".toList "user".toList "key".toList [] (by decide) (by decide)
    (by decide) (by decide) (Or.inl rfl)

/-- C9: for every input string with more than two `:`, wherever they occur,
`volumeURL` returns an error that is not one of `url.Parse`, and parse fails
with the "unable to parse volume specification" wrap of `ErrParsingFailed`. -/
theorem C9_too_many_colons (s : Str) (h : 2 < strings.Count s ':') :
    ∃ e, (∀ u, e ≠ .urlParse u) ∧ volumeURL s = some (.error e) ∧
      ∀ (v : volumeInput) (name : Str), volumeInput.parse v name s =
        some (v, some ⟨.ErrParsingFailed, .unableToParse e⟩) := by
  by_cases hat : '@' ∈ s
  · obtain ⟨up, rest, hs, -, hesc⟩ := escapeKeySlashes_of_mem hat
    have hc : strings.Count (strings.ReplaceAll up '/' '_' ++ '@' :: rest) ':' =
        strings.Count s ':' := by
      rw [hs, Count_append, Count_append, Count_ReplaceAll up (by decide) (by decide)]
    have hstr := volumeURLString_of_escaped_gt hesc (by omega)
    exact ⟨_, fun u hu => URLError.noConfusion hu, volumeURL_of_string_error hstr,
      fun v name => parse_of_volumeURL_error v name (volumeURL_of_string_error hstr)⟩
  · have h5 := volumeURL_of_not_mem hat
    exact ⟨_, fun u hu => URLError.noConfusion hu, h5,
      fun v name => parse_of_volumeURL_error v name h5⟩

/-- C9 at `a:b:c:d@share`. -/
theorem C9_too_many_colons_witness :
    ∃ e, (∀ u, e ≠ .urlParse u) ∧ volumeURL "a:b:c:d@share".toList = some (.error e) ∧
      ∀ (v : volumeInput) (name : Str), volumeInput.parse v name "a:b:c:d@share".toList =
        some (v, some ⟨.ErrParsingFailed, .unableToParse e⟩) :=
  C9_too_many_colons "a:b:c:d@share".toList (by decide)

/-- C10: for all non-empty `user` and `share` of ASCII letters and digits and
every non-empty `key` of ASCII letters, digits and `/`, parsing
`user:key@share` or `user:key@share:/p` succeeds and the parsed key is the
input key; and on every `username:key` part without `_` (and without `@`),
`unescapeKey` gives back what `escapeKeySlashes` replaced. -/
theorem C10_key_round_trip (v : volumeInput) (name user key share tgt : Str)
    (hu : user ≠ []) (hk : key ≠ []) (hs : share ≠ [])
    (huser : ∀ c ∈ user, isAlnum c = true) (hkey : ∀ c ∈ key, isAlnumSlash c = true)
    (hshare : ∀ c ∈ share, isAlnum c = true)
    (htgt : tgt = [] ∨ ∃ p, tgt = ':' :: '/' :: p ∧ ∀ c ∈ p, isAlnumSlash c = true) :
    volumeInput.parse v name (user ++ ':' :: (key ++ '@' :: (share ++ tgt))) =
        some ({ name := name, username := user, key := key, share := share,
                target := if tgt = [] then "/run/volumes/".toList ++ share else tgt.drop 1 },
              none) ∧
      ∀ up rest : Str, '@' ∉ up → '_' ∉ up →
        ∃ e, escapeKeySlashes (up ++ '@' :: rest) = .ok (e ++ '@' :: rest) ∧
          unescapeKey e = up := by
  constructor
  · have h := parse_with_key v name user key share tgt (tgt.drop 1) huser
      (isAlnumSlash_underscore hkey) hshare (target_path htgt)
    rw [h, unescapeKey_ReplaceAll (not_mem_of_class hkey (by decide))]
    rcases htgt with rfl | ⟨p, rfl, -⟩
    · simp [hu, hk, hs]
    · simp [hu, hk, hs]
  · intro up rest hat hus
    exact ⟨_, escapeKeySlashes_append_cons hat rest, unescapeKey_ReplaceAll hus⟩

/-- C10 at `user:ab/cd@share`. -/
theorem C10_key_round_trip_witness :
    volumeInput.parse {} "volume-0".toList "user:ab/cd@share".toList =
        some ({ name := "volume-0".toList, username := "user".toList, key := "ab/cd".toList,
                share := "share".toList, target := "/run/volumes/share".toList }, none) ∧
      ∀ up rest : Str, '@' ∉ up → '_' ∉ up →
        ∃ e, escapeKeySlashes (up ++ '@' :: rest) = .ok (e ++ '@' :: rest) ∧
          unescapeKey e = up :=
  C10_key_round_trip {} "volume-0".toList "user".toList "ab/cd".toList "share".toList []
    (by decide) (by decide) (by decide) (by decide) (by decide) (by decide) (Or.inl rfl)

end Volume

/-! ## Facts used for `GetRunVolumes` -/

namespace Volume

theorem volumeURLString_ne_none (s : Str) : volumeURLString s ≠ none := by
  unfold volumeURLString
  cases escapeKeySlashes s with
  | error e => simp
  | ok e =>
    simp only
    split
    · simp
    · split
      · rename_i hc
        have hl := strings.Split_length ':' ('/' :: '/' :: e)
        rw [hc] at hl
        match hsp : strings.Split ('/' :: '/' :: e) ':', hl with
        | [a, b, c], _ => simp
      · simp

theorem volumeURL_ne_none (s : Str) : volumeURL s ≠ none := by
  unfold volumeURL
  have h := volumeURLString_ne_none s
  cases hs : volumeURLString s with
  | none => exact absurd hs h
  | some r =>
    cases r with
    | error e => simp
    | ok t =>
      simp only
      cases url.Parse t <;> simp

/-- The method never panics: it always returns. -/
theorem parse_ne_none (v : volumeInput) (name s : Str) : volumeInput.parse v name s ≠ none := by
  unfold volumeInput.parse
  have h := volumeURL_ne_none s
  cases hs : volumeURL s with
  | none => exact absurd hs h
  | some r =>
    cases r with
    | error e => simp
    | ok u =>
      simp only
      split
      · simp
      · split
        · simp
        · split
          · simp
          · split <;> simp

/-- On success the receiver carries the assigned name. -/
theorem parse_name {v vi : volumeInput} {name s : Str}
    (h : volumeInput.parse v name s = some (vi, none)) : vi.name = name := by
  unfold volumeInput.parse at h
  cases hs : volumeURL s with
  | none => rw [hs] at h; simp at h
  | some r =>
    rw [hs] at h
    cases r with
    | error e => simp at h
    | ok u =>
      simp only at h
      split at h
      · simp at h
      · split at h
        · simp at h
        · split at h
          · simp at h
          · split at h
            · simp only [Option.some.injEq, Prod.mk.injEq, and_true] at h
              rw [← h]
            · simp only [Option.some.injEq, Prod.mk.injEq, and_true] at h
              rw [← h]

end Volume

namespace Volume

theorem fmtDigits_eq (fuel : Nat) : ∀ (u : Nat) (acc : Str), u < fuel →
    fmtDigits fuel u acc = fmtDigits (u + 1) u [] ++ acc := by
  induction fuel using Nat.strong_induction_on with
  | _ fuel ih =>
    intro u acc hu
    cases fuel with
    | zero => omega
    | succ f =>
      by_cases h10 : u < 10
      · simp [fmtDigits, h10]
      · have hdiv : u / 10 < u := Nat.div_lt_self (by omega) (by omega)
        have e1 : fmtDigits (f + 1) u acc =
            fmtDigits f (u / 10) (Char.ofNat (48 + u % 10) :: acc) := by
          simp [fmtDigits, h10]
        have e2 : fmtDigits (u + 1) u [] = fmtDigits u (u / 10) [Char.ofNat (48 + u % 10)] := by
          simp [fmtDigits, h10]
        rw [e1, e2, ih f (by omega) (u / 10) _ (by omega), ih u (by omega) (u / 10) _ hdiv]
        simp

theorem fmtInteger_lt {u : Nat} (h : u < 10) : fmtInteger u = [Char.ofNat (48 + u)] := by
  simp [fmtInteger, fmtDigits, h]

theorem fmtInteger_ge {u : Nat} (h : ¬ u < 10) :
    fmtInteger u = fmtInteger (u / 10) ++ [Char.ofNat (48 + u % 10)] := by
  have hdiv : u / 10 < u := Nat.div_lt_self (by omega) (by omega)
  have e2 : fmtDigits (u + 1) u [] = fmtDigits u (u / 10) [Char.ofNat (48 + u % 10)] := by
    simp [fmtDigits, h]
  unfold fmtInteger
  rw [e2, fmtDigits_eq u (u / 10) _ hdiv]

theorem fmtInteger_ne_nil (u : Nat) : fmtInteger u ≠ [] := by
  by_cases h : u < 10
  · simp [fmtInteger_lt h]
  · simp [fmtInteger_ge h]

theorem digit_inj {a b : Nat} (ha : a < 10) (hb : b < 10)
    (h : Char.ofNat (48 + a) = Char.ofNat (48 + b)) : a = b := by
  interval_cases a <;> interval_cases b <;> first | rfl | exact absurd h (by decide)

theorem fmtInteger_injective : ∀ (u w : Nat), fmtInteger u = fmtInteger w → u = w := by
  intro u
  induction u using Nat.strong_induction_on with
  | _ u ih =>
    intro w h
    by_cases hu : u < 10
    · by_cases hw : w < 10
      · rw [fmtInteger_lt hu, fmtInteger_lt hw] at h
        exact digit_inj hu hw (List.head_eq_of_cons_eq h)
      · rw [fmtInteger_lt hu, fmtInteger_ge hw] at h
        have hl := congrArg List.length h
        have hne := fmtInteger_ne_nil (w / 10)
        have : 0 < (fmtInteger (w / 10)).length := List.length_pos.mpr hne
        rw [List.length_append] at hl
        simp only [List.length_singleton, List.length_cons, List.length_nil] at hl
        omega
    · by_cases hw : w < 10
      · rw [fmtInteger_ge hu, fmtInteger_lt hw] at h
        have hl := congrArg List.length h
        have hne := fmtInteger_ne_nil (u / 10)
        have : 0 < (fmtInteger (u / 10)).length := List.length_pos.mpr hne
        rw [List.length_append] at hl
        simp only [List.length_singleton, List.length_cons, List.length_nil] at hl
        omega
      · rw [fmtInteger_ge hu, fmtInteger_ge hw] at h
        have hdiv : u / 10 < u := Nat.div_lt_self (by omega) (by omega)
        obtain ⟨h1, h2⟩ := List.append_inj' h rfl
        have e1 := ih (u / 10) hdiv (w / 10) h1
        have e2 := digit_inj (Nat.mod_lt _ (by omega)) (Nat.mod_lt _ (by omega))
          (List.head_eq_of_cons_eq h2)
        omega

theorem volumeName_injective {i j : Nat} (h : volumeName i = volumeName j) : i = j :=
  fmtInteger_injective i j (List.append_cancel_left h)

theorem GoMap.set_fresh {ν : Type} (k : Str) (x : ν) (m : GoMap ν)
    (h : k ∉ m.map Prod.fst) : GoMap.set m k x = m ++ [(k, x)] := by
  induction m with
  | nil => rfl
  | cons p rest ih =>
    obtain ⟨k0, v0⟩ := p
    have hk : k0 ≠ k := fun e => h (by
      show k ∈ k0 :: rest.map Prod.fst
      rw [e]
      exact List.mem_cons_self _ _)
    have ih2 := ih (fun hm => h (by
      show k ∈ k0 :: rest.map Prod.fst
      exact List.mem_cons_of_mem _ hm))
    simp only [GoMap.set, hk, if_false, ih2]
    rfl

theorem GoMap.get?_append_fresh {ν : Type} (k : Str) (x : ν) (b : GoMap ν) (a : GoMap ν)
    (h : k ∉ a.map Prod.fst) : GoMap.get? (a ++ (k, x) :: b) k = some x := by
  induction a with
  | nil => simp [GoMap.get?]
  | cons p rest ih =>
    obtain ⟨k0, v0⟩ := p
    have hk : k0 ≠ k := fun e => h (by
      show k ∈ k0 :: rest.map Prod.fst
      rw [e]
      exact List.mem_cons_self _ _)
    have ih2 := ih (fun hm => h (by
      show k ∈ k0 :: rest.map Prod.fst
      exact List.mem_cons_of_mem _ hm))
    show GoMap.get? ((k0, v0) :: (rest ++ (k, x) :: b)) k = some x
    simp only [GoMap.get?, hk, if_false, ih2]

end Volume

namespace Volume

theorem GoMap.get?_of_getElem? {ν : Type} (m : GoMap ν) :
    ∀ (i : Nat) (k : Str) (x : ν), (m.map Prod.fst).Nodup → m[i]? = some (k, x) →
      GoMap.get? m k = some x := by
  induction m with
  | nil =>
    intro i k x _ h
    cases h
  | cons p rest ih =>
    obtain ⟨k0, v0⟩ := p
    intro i k x hnd h
    have hnd2 : (k0 :: rest.map Prod.fst).Nodup := hnd
    cases i with
    | zero =>
      rw [List.getElem?_cons_zero] at h
      have e : (k0, v0) = (k, x) := Option.some.inj h
      cases e
      simp only [GoMap.get?, if_true]
    | succ i =>
      rw [List.getElem?_cons_succ] at h
      have h2 : rest[i]? = some (k, x) := h
      have hmem : k ∈ rest.map Prod.fst :=
        List.mem_map.mpr ⟨(k, x), List.getElem?_mem h2, rfl⟩
      have hk : k0 ≠ k := fun e => (List.nodup_cons.mp hnd2).1 (e ▸ hmem)
      simp only [GoMap.get?, hk, if_false]
      exact ih i k x (List.nodup_cons.mp hnd2).2 h2

/-- The loop of `GetRunVolumes` when every remaining element parses: each
element adds one map entry and one service-volume record. -/
theorem GetRunVolumesLoop_ok (k : Constants) :
    ∀ (rest : List Str) (i : Nat) (pv : GoMap VolumeConfig) (scv : GoSlice ServiceVolumeConfig),
      (∀ j s, rest[j]? = some s →
        ∃ vi, volumeInput.parse {} (volumeName (i + j)) s = some (vi, none)) →
      (∀ key ∈ pv.map Prod.fst, ∃ n, n < i ∧ key = volumeName n) →
      ∃ (E : GoMap VolumeConfig) (svs : GoSlice ServiceVolumeConfig)
        (L : List ServiceVolumeConfig),
        GetRunVolumesLoop k i rest pv scv = some ⟨some (pv ++ E), svs, none⟩ ∧
        GoSlice.elems svs = GoSlice.elems scv ++ L ∧
        E.length = rest.length ∧ L.length = rest.length ∧
        ∀ j s vi, rest[j]? = some s →
          volumeInput.parse {} (volumeName (i + j)) s = some (vi, none) →
          E[j]? = some (volumeName (i + j),
            { Name := volumeName (i + j)
              Driver := k.azureFileDriverName
              DriverOpts :=
                GoMap.set (GoMap.set (GoMap.set [] k.volumeDriveroptsAccountNameKey vi.username)
                  k.volumeDriveroptsAccountKeyKey vi.key) k.volumeDriveroptsShareNameKey
                  vi.share }) ∧
          L[j]? = some ⟨k.azureFileDriverName, volumeName (i + j), vi.target⟩ := by
  intro rest
  induction rest with
  | nil =>
    intro i pv scv _ _
    refine ⟨[], scv, [], ?_, ?_, rfl, rfl, ?_⟩
    · simp [GetRunVolumesLoop]
    · simp
    · intro j s vi h
      cases h
  | cons s rest ih =>
    intro i pv scv hall hkeys
    obtain ⟨vi0, h0⟩ := hall 0 s List.getElem?_cons_zero
    rw [Nat.add_zero] at h0
    have hname : vi0.name = volumeName i := parse_name h0
    have hfresh : volumeName i ∉ pv.map Prod.fst := by
      intro hm
      obtain ⟨n, hn, e⟩ := hkeys _ hm
      have := volumeName_injective e
      omega
    have hall2 : ∀ j t, rest[j]? = some t →
        ∃ vi, volumeInput.parse {} (volumeName (i + 1 + j)) t = some (vi, none) := by
      intro j t hj
      have h := hall (j + 1) t (List.getElem?_cons_succ.trans hj)
      rwa [show i + (j + 1) = i + 1 + j by omega] at h
    have hkeys2 : ∀ key ∈ (pv ++ [(volumeName i,
        ({ Name := volumeName i
           Driver := k.azureFileDriverName
           DriverOpts :=
             GoMap.set (GoMap.set (GoMap.set [] k.volumeDriveroptsAccountNameKey vi0.username)
               k.volumeDriveroptsAccountKeyKey vi0.key) k.volumeDriveroptsShareNameKey
               vi0.share } : VolumeConfig))]).map Prod.fst,
        ∃ n, n < i + 1 ∧ key = volumeName n := by
      intro key hm
      rw [List.map_append, List.mem_append] at hm
      rcases hm with hm | hm
      · obtain ⟨n, hn, e⟩ := hkeys key hm
        exact ⟨n, by omega, e⟩
      · have e : key = volumeName i := List.mem_singleton.mp hm
        exact ⟨i, by omega, e⟩
    obtain ⟨E, svs, L, hloop, hsvs, hE, hL, hidx⟩ := ih (i + 1) _
      (GoSlice.append scv ⟨k.azureFileDriverName, volumeName i, vi0.target⟩) hall2 hkeys2
    refine ⟨(volumeName i,
        ({ Name := volumeName i
           Driver := k.azureFileDriverName
           DriverOpts :=
             GoMap.set (GoMap.set (GoMap.set [] k.volumeDriveroptsAccountNameKey vi0.username)
               k.volumeDriveroptsAccountKeyKey vi0.key) k.volumeDriveroptsShareNameKey
               vi0.share } : VolumeConfig)) :: E, svs,
      ⟨k.azureFileDriverName, volumeName i, vi0.target⟩ :: L, ?_, ?_, ?_, ?_, ?_⟩
    · unfold GetRunVolumesLoop
      rw [h0]
      simp only [hname]
      rw [GoMap.set_fresh _ _ _ hfresh, hloop, List.append_assoc]
      rfl
    · rw [hsvs]
      cases scv <;> simp [GoSlice.append, GoSlice.elems]
    · simp [hE]
    · simp [hL]
    · intro j t vi hj hp
      cases j with
      | zero =>
        rw [List.getElem?_cons_zero] at hj
        have e : s = t := Option.some.inj hj
        subst e
        rw [Nat.add_zero] at hp
        rw [h0] at hp
        have e2 : vi0 = vi := (Prod.mk.inj (Option.some.inj hp)).1
        subst e2
        rw [List.getElem?_cons_zero, List.getElem?_cons_zero, Nat.add_zero]
        exact ⟨rfl, rfl⟩
      | succ j =>
        rw [List.getElem?_cons_succ] at hj
        have hj2 : rest[j]? = some t := hj
        rw [show i + (j + 1) = i + 1 + j by omega] at hp ⊢
        rw [List.getElem?_cons_succ, List.getElem?_cons_succ]
        exact hidx j t vi hj2 hp

end Volume

namespace Volume

/-- The loop of `GetRunVolumes` either goes through every remaining element, or
stops at the first one that fails to parse and returns that error alone. -/
theorem GetRunVolumesLoop_cases (k : Constants) :
    ∀ (rest : List Str) (i : Nat) (pv : GoMap VolumeConfig) (scv : GoSlice ServiceVolumeConfig),
      (∃ m svs, GetRunVolumesLoop k i rest pv scv = some ⟨some m, svs, none⟩ ∧
        ∀ j s, rest[j]? = some s →
          ∃ vi, volumeInput.parse {} (volumeName (i + j)) s = some (vi, none)) ∨
      (∃ j s v e, rest[j]? = some s ∧
        volumeInput.parse {} (volumeName (i + j)) s = some (v, some e) ∧
        (∀ n t, n < j → rest[n]? = some t →
          ∃ vi, volumeInput.parse {} (volumeName (i + n)) t = some (vi, none)) ∧
        GetRunVolumesLoop k i rest pv scv = some ⟨none, none, some e⟩) := by
  intro rest
  induction rest with
  | nil =>
    intro i pv scv
    refine Or.inl ⟨pv, scv, by simp [GetRunVolumesLoop], ?_⟩
    intro j s h
    cases h
  | cons s rest ih =>
    intro i pv scv
    cases hp : volumeInput.parse {} (volumeName i) s with
    | none => exact absurd hp (parse_ne_none _ _ _)
    | some r =>
      obtain ⟨vi, err⟩ := r
      cases err with
      | some e =>
        refine Or.inr ⟨0, s, vi, e, List.getElem?_cons_zero, by rw [Nat.add_zero]; exact hp, ?_, ?_⟩
        · intro n t hn
          omega
        · unfold GetRunVolumesLoop
          rw [hp]
      | none =>
        have hloop : GetRunVolumesLoop k i (s :: rest) pv scv =
            GetRunVolumesLoop k (i + 1) rest
              (GoMap.set pv vi.name
                { Name := vi.name
                  Driver := k.azureFileDriverName
                  DriverOpts :=
                    GoMap.set (GoMap.set (GoMap.set [] k.volumeDriveroptsAccountNameKey
                      vi.username) k.volumeDriveroptsAccountKeyKey vi.key)
                      k.volumeDriveroptsShareNameKey vi.share })
              (GoSlice.append scv
                { Type_ := k.azureFileDriverName, Source := vi.name, Target := vi.target }) := by
          conv_lhs => unfold GetRunVolumesLoop
          rw [hp]
        rw [hloop]
        rcases ih (i + 1) _ _ with ⟨m, svs, hm, hall⟩ | ⟨j, t, v, e, hj, hpe, hbefore, hres⟩
        · refine Or.inl ⟨m, svs, hm, ?_⟩
          intro j t hj
          cases j with
          | zero =>
            rw [List.getElem?_cons_zero] at hj
            cases Option.some.inj hj
            exact ⟨vi, by rw [Nat.add_zero]; exact hp⟩
          | succ j =>
            rw [List.getElem?_cons_succ] at hj
            rw [show i + (j + 1) = i + 1 + j by omega]
            exact hall j t hj
        · refine Or.inr ⟨j + 1, t, v, e, List.getElem?_cons_succ.trans hj, ?_, ?_, hres⟩
          · rw [show i + (j + 1) = i + 1 + j by omega]
            exact hpe
          · intro n u hn hu
            cases n with
            | zero =>
              rw [List.getElem?_cons_zero] at hu
              cases Option.some.inj hu
              exact ⟨vi, by rw [Nat.add_zero]; exact hp⟩
            | succ n =>
              rw [List.getElem?_cons_succ] at hu
              rw [show i + (n + 1) = i + 1 + n by omega]
              exact hbefore n u (by omega) hu

end Volume

/-! ## The builder: claims about `GetRunVolumes` -/

namespace Volume

/-- C3: for every list of `n` specs that each parse successfully,
`GetRunVolumes` returns no error, a mapping with exactly `n` entries whose
keys are exactly `volume-0` ... `volume-(n-1)` (pairwise distinct), and exactly
`n` service-volume records in input order: the `i`-th record has source
`volume-i` and the target parsed from the `i`-th spec, and the mapping entry
under `volume-i` has name `volume-i`.  For `n = 0` both are empty. -/
theorem C3_GetRunVolumes_success (k : Constants) (volumes : List Str)
    (h : ∀ i s, volumes[i]? = some s →
      ∃ vi, volumeInput.parse {} (volumeName i) s = some (vi, none)) :
    ∃ m svs, GetRunVolumes k volumes = some ⟨some m, svs, none⟩ ∧
      m.length = volumes.length ∧
      m.map Prod.fst = (List.range volumes.length).map volumeName ∧
      (m.map Prod.fst).Nodup ∧
      (GoSlice.elems svs).length = volumes.length ∧
      ∀ i s vi, volumes[i]? = some s →
        volumeInput.parse {} (volumeName i) s = some (vi, none) →
        (GoSlice.elems svs)[i]? = some ⟨k.azureFileDriverName, volumeName i, vi.target⟩ ∧
        ∃ cfg, GoMap.get? m (volumeName i) = some cfg ∧ cfg.Name = volumeName i := by
  have h0 : ∀ j s, volumes[j]? = some s →
      ∃ vi, volumeInput.parse {} (volumeName (0 + j)) s = some (vi, none) := by
    intro j s hj
    rw [Nat.zero_add]
    exact h j s hj
  obtain ⟨E, svs, L, hloop, hsvs, hE, hL, hidx⟩ :=
    GetRunVolumesLoop_ok k volumes 0 [] none h0 (by
      intro key hk
      cases hk)
  have hkeys : E.map Prod.fst = (List.range volumes.length).map volumeName := by
    apply List.ext_getElem?
    intro n
    rw [List.getElem?_map, List.getElem?_map]
    by_cases hn : n < volumes.length
    · have hs : volumes[n]? = some volumes[n] := List.getElem?_eq_getElem hn
      obtain ⟨vi, hvi⟩ := h0 n _ hs
      rw [(hidx n _ vi hs hvi).1, List.getElem?_range hn, Nat.zero_add]
      rfl
    · rw [List.getElem?_eq_none (by omega), List.getElem?_eq_none (by
        rw [List.length_range]
        omega)]
      rfl
  have hnd : (E.map Prod.fst).Nodup := by
    rw [hkeys]
    exact List.Nodup.map (fun a b e => volumeName_injective e) (List.nodup_range _)
  have hsvs2 : GoSlice.elems svs = L := by
    rw [hsvs]
    rfl
  refine ⟨E, svs, hloop, hE, hkeys, hnd, by rw [hsvs2, hL], ?_⟩
  intro i s vi hs hp
  have hp0 : volumeInput.parse {} (volumeName (0 + i)) s = some (vi, none) := by
    rw [Nat.zero_add]
    exact hp
  obtain ⟨h1, h2⟩ := hidx i s vi hs hp0
  rw [Nat.zero_add] at h1 h2
  rw [hsvs2]
  exact ⟨h2, _, GoMap.get?_of_getElem? E i _ _ hnd h1, rfl⟩

set_option maxRecDepth 1000000 in
/-- C3 at the two specs `user1:key1@share1:/mnt/a` and `user2:key2@share2`: the
entries are `volume-0` and `volume-1`, the targets `/mnt/a` and
`/run/volumes/share2`. -/
theorem C3_GetRunVolumes_success_witness :
    GetRunVolumes ⟨"azure_file".toList, "storage_account_name".toList,
          "storage_account_key".toList, "share_name".toList⟩
        ["user1:key1@share1:/mnt/a".toList, "user2:key2@share2".toList] =
      some ⟨some
          [("volume-0".toList, ⟨"volume-0".toList, "azure_file".toList,
              [("storage_account_name".toList, "user1".toList),
               ("storage_account_key".toList, "key1".toList),
               ("share_name".toList, "share1".toList)]⟩),
           ("volume-1".toList, ⟨"volume-1".toList, "azure_file".toList,
              [("storage_account_name".toList, "user2".toList),
               ("storage_account_key".toList, "key2".toList),
               ("share_name".toList, "share2".toList)]⟩)],
        some [⟨"azure_file".toList, "volume-0".toList, "/mnt/a".toList⟩,
              ⟨"azure_file".toList, "volume-1".toList, "/run/volumes/share2".toList⟩],
        none⟩ ∧
    ∃ m svs,
      GetRunVolumes ⟨"azure_file".toList, "storage_account_name".toList,
          "storage_account_key".toList, "share_name".toList⟩
        ["user1:key1@share1:/mnt/a".toList, "user2:key2@share2".toList] =
        some ⟨some m, svs, none⟩ ∧
      m.length = 2 ∧
      m.map Prod.fst = (List.range 2).map volumeName ∧
      (m.map Prod.fst).Nodup ∧
      (GoSlice.elems svs).length = 2 ∧
      ∀ i s vi,
        ["user1:key1@share1:/mnt/a".toList, "user2:key2@share2".toList][i]? = some s →
        volumeInput.parse {} (volumeName i) s = some (vi, none) →
        (GoSlice.elems svs)[i]? = some ⟨"azure_file".toList, volumeName i, vi.target⟩ ∧
        ∃ cfg, GoMap.get? m (volumeName i) = some cfg ∧ cfg.Name = volumeName i :=
  ⟨by decide,
   C3_GetRunVolumes_success _ _ (by
    intro i s hs
    match i, hs with
    | 0, hs =>
      cases Option.some.inj hs
      exact ⟨_, rfl⟩
    | 1, hs =>
      cases Option.some.inj hs
      exact ⟨_, rfl⟩)⟩

/-- C4: for every list of specs `GetRunVolumes` returns; it returns an error if
and only if some element fails `parse`; and when the element at index `i` fails
while every element before it parses, the error returned is the one `parse`
gives for that element and both the mapping and the sequence are nil. -/
theorem C4_GetRunVolumes_fail_fast (k : Constants) (volumes : List Str) :
    ∃ r, GetRunVolumes k volumes = some r ∧
      (r.err ≠ none ↔ ∃ i s v e, volumes[i]? = some s ∧
        volumeInput.parse {} (volumeName i) s = some (v, some e)) ∧
      ∀ i s v e, volumes[i]? = some s →
        volumeInput.parse {} (volumeName i) s = some (v, some e) →
        (∀ j t, j < i → volumes[j]? = some t →
          ∃ vj, volumeInput.parse {} (volumeName j) t = some (vj, none)) →
        r = ⟨none, none, some e⟩ := by
  rcases GetRunVolumesLoop_cases k volumes 0 [] none with
    ⟨m, svs, hm, hall⟩ | ⟨j, t, v, e, hj, hpe, hbefore, hres⟩
  · have hno : ∀ i s v e, volumes[i]? = some s →
        volumeInput.parse {} (volumeName i) s ≠ some (v, some e) := by
      intro i s v e hs hp
      obtain ⟨vi, hvi⟩ := hall i s hs
      rw [Nat.zero_add, hp] at hvi
      have := (Prod.mk.inj (Option.some.inj hvi)).2
      cases this
    refine ⟨_, hm, ?_, ?_⟩
    · constructor
      · intro hne
        exact absurd rfl hne
      · rintro ⟨i, s, v, e, hs, hp⟩
        exact absurd hp (hno i s v e hs)
    · intro i s v e hs hp _
      exact absurd hp (hno i s v e hs)
  · rw [Nat.zero_add] at hpe
    refine ⟨_, hres, ?_, ?_⟩
    · constructor
      · intro _
        exact ⟨j, t, v, e, hj, hpe⟩
      · intro _ hnone
        cases hnone
    · intro i s v2 e2 hs hp hbefore2
      have hij : i = j := by
        rcases Nat.lt_trichotomy i j with hlt | heq | hgt
        · obtain ⟨vi, hvi⟩ := hbefore i s hlt hs
          rw [Nat.zero_add, hp] at hvi
          have := (Prod.mk.inj (Option.some.inj hvi)).2
          cases this
        · exact heq
        · obtain ⟨vj, hvj⟩ := hbefore2 j t hgt hj
          rw [hpe] at hvj
          have := (Prod.mk.inj (Option.some.inj hvj)).2
          cases this
      subst hij
      rw [hj] at hs
      cases Option.some.inj hs
      rw [hpe] at hp
      have he : some e = some e2 := (Prod.mk.inj (Option.some.inj hp)).2
      cases he
      rfl

end Volume

/-! ## The parser on keys with `_`, usernames with `/` and targets without `/` -/

namespace Volume

theorem escapeKeySlashes_user_key (user key rest : Str) (hu : '@' ∉ user) (hk : '@' ∉ key) :
    escapeKeySlashes (user ++ ':' :: (key ++ '@' :: rest)) =
      .ok (strings.ReplaceAll user '/' '_' ++ ':' :: (strings.ReplaceAll key '/' '_' ++
        '@' :: rest)) := by
  have hup : '@' ∉ user ++ ':' :: key := by
    intro m
    simp only [List.mem_append, List.mem_cons] at m
    rcases m with m | e | m
    · exact hu m
    · exact absurd e (by decide)
    · exact hk m
  have h := escapeKeySlashes_append_cons hup rest
  rw [strings.ReplaceAll_append] at h
  simpa [strings.ReplaceAll] using h

theorem unescapeKey_ReplaceAll_eq (s : Str) :
    unescapeKey (strings.ReplaceAll s '/' '_') = strings.ReplaceAll s '_' '/' := by
  induction s with
  | nil => rfl
  | cons c cs ih =>
    simp only [unescapeKey, strings.ReplaceAll, List.map_cons] at ih ⊢
    rw [ih]
    by_cases h1 : c = '/'
    · subst h1
      rfl
    · by_cases h2 : c = '_'
      · subst h2
        rfl
      · simp [h1, h2]

theorem ReplaceAll_not_mem (s : Str) {old new : Char} (h : new ≠ old) :
    old ∉ strings.ReplaceAll s old new := by
  intro m
  simp only [strings.ReplaceAll, List.mem_map] at m
  obtain ⟨d, -, e⟩ := m
  by_cases hd : d = old
  · rw [if_pos hd] at e
    exact h e
  · rw [if_neg hd] at e
    exact hd e

theorem ReplaceAll_ne_of_mem {s : Str} {old new : Char} (h : new ≠ old) (hm : old ∈ s) :
    strings.ReplaceAll s old new ≠ s :=
  fun e => ReplaceAll_not_mem s h (by rw [e]; exact hm)

theorem ReplaceAll_colon_not_mem {s : Str} (h : ':' ∉ s) :
    ':' ∉ strings.ReplaceAll s '/' '_' := by
  intro m
  simp only [strings.ReplaceAll, List.mem_map] at m
  obtain ⟨d, hd, e⟩ := m
  by_cases hs : d = '/'
  · rw [if_pos hs] at e
    exact absurd e (by decide)
  · rw [if_neg hs] at e
    exact h (e ▸ hd)

/-- The URL `volumeURL` returns for `user:key@host`, where `user` and `key` may
hold `/` and `_` and `host` is made of letters and digits. -/
theorem volumeURL_escaped (user key host : Str)
    (huser : ∀ c ∈ user, isAlnumSlashUnderscore c = true)
    (hkey : ∀ c ∈ key, isAlnumSlashUnderscore c = true)
    (hhost : ∀ c ∈ host, isAlnum c = true) :
    volumeURL (user ++ ':' :: (key ++ '@' :: host)) =
      some (.ok { User := some ⟨strings.ReplaceAll user '/' '_',
                    strings.ReplaceAll key '/' '_', true⟩
                  Host := host
                  Path := [] }) := by
  have hu_at : '@' ∉ user := not_mem_of_class huser (by decide)
  have hk_at : '@' ∉ key := not_mem_of_class hkey (by decide)
  have hu_co : ':' ∉ user := not_mem_of_class huser (by decide)
  have hk_co : ':' ∉ key := not_mem_of_class hkey (by decide)
  have hh_co : ':' ∉ host := not_mem_of_class hhost (by decide)
  have hu'_co := ReplaceAll_colon_not_mem hu_co
  have hk'_co := ReplaceAll_colon_not_mem hk_co
  have hesc := escapeKeySlashes_user_key user key host hu_at hk_at
  have hui : ∀ c ∈ strings.ReplaceAll user '/' '_' ++ ':' :: strings.ReplaceAll key '/' '_',
      isUserinfoChar c = true := by
    intro c m
    simp only [List.mem_append, List.mem_cons] at m
    rcases m with m | e | m
    · exact ReplaceAll_key_class huser c m
    · subst e
      decide
    · exact ReplaceAll_key_class hkey c m
  have hcolon : ':' ∈ strings.ReplaceAll user '/' '_' ++ ':' :: strings.ReplaceAll key '/' '_' := by
    simp
  have hsplit := url.split_append_cons hu'_co (strings.ReplaceAll key '/' '_')
  have hP := url.Parse_plain _ host [] [] hui hhost (Or.inl rfl) (Or.inl rfl)
  simp only [hcolon, if_true, hsplit, List.append_nil, List.append_assoc,
    List.cons_append] at hP
  have hstr := volumeURLString_of_escaped_lt hesc (by
    rw [Count_append, Count_cons_self, Count_append, Count_cons_of_ne (by decide),
      Count_of_not_mem hu'_co, Count_of_not_mem hk'_co, Count_of_not_mem hh_co]
    omega)
  unfold volumeURL
  rw [hstr]
  simp only
  rw [hP]

/-- What `parse` does on `user:key@host` when all three parts are non-empty. -/
theorem parse_escaped (v : volumeInput) (name user key host : Str)
    (huser : ∀ c ∈ user, isAlnumSlashUnderscore c = true)
    (hkey : ∀ c ∈ key, isAlnumSlashUnderscore c = true)
    (hhost : ∀ c ∈ host, isAlnum c = true)
    (hu : user ≠ []) (hk : key ≠ []) (hh : host ≠ []) :
    volumeInput.parse v name (user ++ ':' :: (key ++ '@' :: host)) =
      some ({ name := name, username := strings.ReplaceAll user '/' '_',
              key := strings.ReplaceAll key '_' '/', share := host,
              target := "/run/volumes/".toList ++ host }, none) := by
  have hu' : strings.ReplaceAll user '/' '_' ≠ [] := fun e => hu (ReplaceAll_eq_nil.mp e)
  have hk' : strings.ReplaceAll key '/' '_' ≠ [] := fun e => hk (ReplaceAll_eq_nil.mp e)
  unfold volumeInput.parse
  rw [volumeURL_escaped user key host huser hkey hhost]
  simp only [url.Userinfo.Username, url.Userinfo.Password]
  simp [hu', hk', hh, unescapeKey_ReplaceAll_eq]

end Volume

namespace Volume

/-- C11: for all non-empty `user` and `share` of ASCII letters and digits and
every `key` of ASCII letters, digits, `/` and `_` with at least one `_`,
parsing `user:key@share` succeeds and the parsed key is the input key with
every `_` replaced by `/`, which differs from the input key. -/
theorem C11_key_underscore_lossy (v : volumeInput) (name user key share : Str)
    (hu : user ≠ []) (hs : share ≠ [])
    (huser : ∀ c ∈ user, isAlnum c = true)
    (hkey : ∀ c ∈ key, isAlnumSlashUnderscore c = true)
    (hshare : ∀ c ∈ share, isAlnum c = true) (hus : '_' ∈ key) :
    volumeInput.parse v name (user ++ ':' :: (key ++ '@' :: share)) =
        some ({ name := name, username := user,
                key := key.map (fun c => if c = '_' then '/' else c), share := share,
                target := "/run/volumes/".toList ++ share }, none) ∧
      key.map (fun c => if c = '_' then '/' else c) ≠ key := by
  have hk : key ≠ [] := List.ne_nil_of_mem hus
  have h := parse_escaped v name user key share
    (isAlnumSlash_underscore (isAlnum_slash huser)) hkey hshare hu hk hs
  rw [strings.ReplaceAll_of_not_mem (not_mem_of_class huser (by decide))] at h
  exact ⟨h, ReplaceAll_ne_of_mem (by decide) hus⟩

/-- C11 at `user:a_b/c@share`: the parsed key is `a/b/c`. -/
theorem C11_key_underscore_lossy_witness :
    volumeInput.parse {} "volume-0".toList "user:a_b/c@share".toList =
        some ({ name := "volume-0".toList, username := "user".toList,
                key := "a/b/c".toList, share := "share".toList,
                target := "/run/volumes/share".toList }, none) ∧
      "a/b/c".toList ≠ "a_b/c".toList :=
  C11_key_underscore_lossy {} "volume-0".toList "user".toList "a_b/c".toList "share".toList
    (by decide) (by decide) (by decide) (by decide) (by decide) (by decide)

/-- C17: for all non-empty `key` and `share` of ASCII letters and digits and
every `username` of ASCII letters, digits and `/` with at least one `/`,
parsing `username:key@share` succeeds and the parsed username is the input
username with every `/` replaced by `_`, which differs from the input
username: the un-escaping is applied to the key only. -/
theorem C17_username_stays_escaped (v : volumeInput) (name username key share : Str)
    (hk : key ≠ []) (hs : share ≠ [])
    (huser : ∀ c ∈ username, isAlnumSlash c = true)
    (hkey : ∀ c ∈ key, isAlnum c = true)
    (hshare : ∀ c ∈ share, isAlnum c = true) (hsl : '/' ∈ username) :
    volumeInput.parse v name (username ++ ':' :: (key ++ '@' :: share)) =
        some ({ name := name,
                username := username.map (fun c => if c = '/' then '_' else c),
                key := key, share := share,
                target := "/run/volumes/".toList ++ share }, none) ∧
      username.map (fun c => if c = '/' then '_' else c) ≠ username := by
  have hu : username ≠ [] := List.ne_nil_of_mem hsl
  have h := parse_escaped v name username key share (isAlnumSlash_underscore huser)
    (isAlnumSlash_underscore (isAlnum_slash hkey)) hshare hu hk hs
  rw [strings.ReplaceAll_of_not_mem (not_mem_of_class hkey (by decide))] at h
  exact ⟨h, ReplaceAll_ne_of_mem (by decide) hsl⟩

/-- C17 at `us/er:key@share`: the parsed username is `us_er`. -/
theorem C17_username_stays_escaped_witness :
    volumeInput.parse {} "volume-0".toList "us/er:key@share".toList =
        some ({ name := "volume-0".toList, username := "us_er".toList,
                key := "key".toList, share := "share".toList,
                target := "/run/volumes/share".toList }, none) ∧
      "us_er".toList ≠ "us/er".toList :=
  C17_username_stays_escaped {} "volume-0".toList "us/er".toList "key".toList "share".toList
    (by decide) (by decide) (by decide) (by decide) (by decide) (by decide)

/-- C18: for all non-empty `user`, `key`, `share` and every `t` of ASCII letters
and digits, parsing `user:key@share:t` (a target without its leading `/`)
succeeds with share `share` followed by `t` and target `/run/volumes/`
followed by `share` and `t`. -/
theorem C18_target_without_slash (v : volumeInput) (name user key share t : Str)
    (hu : user ≠ []) (hk : key ≠ []) (hs : share ≠ [])
    (huser : ∀ c ∈ user, isAlnum c = true) (hkey : ∀ c ∈ key, isAlnum c = true)
    (hshare : ∀ c ∈ share, isAlnum c = true) (ht : ∀ c ∈ t, isAlnum c = true) :
    volumeInput.parse v name (user ++ ':' :: (key ++ '@' :: (share ++ ':' :: t))) =
      some ({ name := name, username := user, key := key, share := share ++ t,
              target := "/run/volumes/".toList ++ (share ++ t) }, none) := by
  have hu_at : '@' ∉ user := not_mem_of_class huser (by decide)
  have hk_at : '@' ∉ key := not_mem_of_class hkey (by decide)
  have hu_co : ':' ∉ user := not_mem_of_class huser (by decide)
  have hk_co : ':' ∉ key := not_mem_of_class hkey (by decide)
  have hs_co : ':' ∉ share := not_mem_of_class hshare (by decide)
  have ht_co : ':' ∉ t := not_mem_of_class ht (by decide)
  have hy : ':' ∉ key ++ '@' :: share := by
    intro m
    simp only [List.mem_append, List.mem_cons] at m
    rcases m with m | e | m
    · exact hk_co m
    · exact absurd e (by decide)
    · exact hs_co m
  have hesc : escapeKeySlashes (user ++ ':' :: (key ++ '@' :: (share ++ ':' :: t))) =
      .ok (user ++ ':' :: ((key ++ '@' :: share) ++ ':' :: t)) := by
    have h := escapeKeySlashes_user_key user key (share ++ ':' :: t) hu_at hk_at
    rw [strings.ReplaceAll_of_not_mem (not_mem_of_class huser (by decide)),
      strings.ReplaceAll_of_not_mem (not_mem_of_class hkey (by decide))] at h
    simpa using h
  have hstr := volumeURLString_of_escaped_two hesc hu_co hy ht_co
  have hstr2 : volumeURLString (user ++ ':' :: (key ++ '@' :: (share ++ t))) =
      some (.ok ('/' :: '/' :: (user ++ ':' :: ((key ++ '@' :: share) ++ t)))) := by
    have hesc2 := escapeKeySlashes_user_key user key (share ++ t) hu_at hk_at
    rw [strings.ReplaceAll_of_not_mem (not_mem_of_class huser (by decide)),
      strings.ReplaceAll_of_not_mem (not_mem_of_class hkey (by decide))] at hesc2
    have h := volumeURLString_of_escaped_lt hesc2 (by
      rw [Count_append, Count_cons_self, Count_append, Count_cons_of_ne (by decide),
        Count_append, Count_of_not_mem hu_co, Count_of_not_mem hk_co,
        Count_of_not_mem hs_co, Count_of_not_mem ht_co]
      omega)
    simpa using h
  have hurl : volumeURL (user ++ ':' :: (key ++ '@' :: (share ++ ':' :: t))) =
      volumeURL (user ++ ':' :: (key ++ '@' :: (share ++ t))) := by
    unfold volumeURL
    rw [hstr, hstr2]
  have hp : volumeInput.parse v name (user ++ ':' :: (key ++ '@' :: (share ++ ':' :: t))) =
      volumeInput.parse v name (user ++ ':' :: (key ++ '@' :: (share ++ t))) := by
    unfold volumeInput.parse
    rw [hurl]
  rw [hp, parse_escaped v name user key (share ++ t)
    (isAlnumSlash_underscore (isAlnum_slash huser))
    (isAlnumSlash_underscore (isAlnum_slash hkey)) (by
      intro c m
      rcases List.mem_append.mp m with m | m
      · exact hshare c m
      · exact ht c m) hu hk (by simp [hs]),
    strings.ReplaceAll_of_not_mem (not_mem_of_class huser (by decide)),
    strings.ReplaceAll_of_not_mem (not_mem_of_class hkey (by decide))]

/-- C18 at `user:key@share:mnt`. -/
theorem C18_target_without_slash_witness :
    volumeInput.parse {} "volume-0".toList "user:key@share:mnt".toList =
      some ({ name := "volume-0".toList, username := "user".toList, key := "key".toList,
              share := "sharemnt".toList, target := "/run/volumes/sharemnt".toList }, none) :=
  C18_target_without_slash {} "volume-0".toList "user".toList "key".toList "share".toList
    "mnt".toList (by decide) (by decide) (by decide) (by decide) (by decide) (by decide)
    (by decide)

end Volume

/-! ## The escaping and the removal of the second `:` -/

namespace Volume

theorem mem_of_Index_nonneg {s : Str} {sep : Char} (h : 0 ≤ strings.Index s sep) : sep ∈ s := by
  by_contra hn
  rw [strings.Index_of_not_mem hn] at h
  omega

theorem Index_lt_length {s : Str} {sep : Char} (h : 0 ≤ strings.Index s sep) :
    (strings.Index s sep).toNat < s.length := by
  obtain ⟨up, rest, hs, hup⟩ := List.eq_append_cons_of_mem (mem_of_Index_nonneg h)
  rw [hs, strings.Index_append_cons rest hup]
  simp

/-- A string with exactly two `sep` is three pieces without `sep` joined by it. -/
theorem eq_three_pieces {e : Str} {sep : Char} (h : strings.Count e sep = 2) :
    ∃ x y z, e = x ++ sep :: (y ++ sep :: z) ∧ sep ∉ x ∧ sep ∉ y ∧ sep ∉ z := by
  have hm : sep ∈ e := by
    by_contra hn
    rw [Count_of_not_mem hn] at h
    omega
  obtain ⟨x, r, he, hx⟩ := List.eq_append_cons_of_mem hm
  have hr : strings.Count r sep = 1 := by
    rw [he, Count_append, Count_cons_self, Count_of_not_mem hx] at h
    omega
  have hm2 : sep ∈ r := by
    by_contra hn
    rw [Count_of_not_mem hn] at hr
    omega
  obtain ⟨y, z, hr2, hy⟩ := List.eq_append_cons_of_mem hm2
  have hz : sep ∉ z := by
    intro hn
    rw [hr2, Count_append, Count_cons_self, Count_of_not_mem hy] at hr
    have : 0 < strings.Count z sep := List.count_pos_iff.mpr hn
    omega
  exact ⟨x, y, z, by rw [he, hr2], hx, hy, hz⟩

theorem deleteOccurrence_zero_append {sep : Char} (z : Str) :
    ∀ {y : Str}, sep ∉ y → deleteOccurrence sep 0 (y ++ sep :: z) = y ++ z
  | [], _ => by simp [deleteOccurrence]
  | c :: cs, h => by
    have hc : c ≠ sep := fun e => h (e ▸ List.mem_cons_self _ _)
    have ih := deleteOccurrence_zero_append z (y := cs) (fun m => h (List.mem_cons_of_mem _ m))
    show deleteOccurrence sep 0 (c :: (cs ++ sep :: z)) = c :: (cs ++ z)
    simp only [deleteOccurrence, hc, if_false, ih]

theorem deleteOccurrence_one_append {sep : Char} (y z : Str) (hy : sep ∉ y) :
    ∀ {x : Str}, sep ∉ x →
      deleteOccurrence sep 1 (x ++ sep :: (y ++ sep :: z)) = x ++ sep :: (y ++ z)
  | [], _ => by
    show deleteOccurrence sep (0 + 1) (sep :: (y ++ sep :: z)) = sep :: (y ++ z)
    simp only [deleteOccurrence, if_true, deleteOccurrence_zero_append z hy]
  | c :: cs, h => by
    have hc : c ≠ sep := fun e => h (e ▸ List.mem_cons_self _ _)
    have ih := deleteOccurrence_one_append y z hy (x := cs)
      (fun m => h (List.mem_cons_of_mem _ m))
    show deleteOccurrence sep (0 + 1) (c :: (cs ++ sep :: (y ++ sep :: z))) =
      c :: (cs ++ sep :: (y ++ z))
    simp only [deleteOccurrence, hc, if_false]
    exact congrArg (c :: ·) ih

/-- C16: for every string `s` that contains `@`, `escapeKeySlashes s` succeeds
and returns a string of the same length; up to the first `@` (at index
`strings.Index s '@'`) it is `s` with every `/` replaced by `_`, so it holds no
`/` there; from the first `@` to the end it is identical to `s`. -/
theorem C16_escape_shape (s : Str) (h : '@' ∈ s) :
    ∃ e, escapeKeySlashes s = .ok e ∧ e.length = s.length ∧
      0 ≤ strings.Index s '@' ∧
      '@' ∉ s.take (strings.Index s '@').toNat ∧
      (s.drop (strings.Index s '@').toNat).head? = some '@' ∧
      e.take (strings.Index s '@').toNat =
        (s.take (strings.Index s '@').toNat).map (fun c => if c = '/' then '_' else c) ∧
      '/' ∉ e.take (strings.Index s '@').toNat ∧
      e.drop (strings.Index s '@').toNat = s.drop (strings.Index s '@').toNat := by
  obtain ⟨up, rest, hs, hup, hesc⟩ := escapeKeySlashes_of_mem h
  have hi : strings.Index s '@' = up.length := by
    rw [hs]
    exact strings.Index_append_cons rest hup
  have hlen : (strings.ReplaceAll up '/' '_').length = up.length := by
    simp [strings.ReplaceAll]
  have ht1 : (strings.ReplaceAll up '/' '_' ++ '@' :: rest).take up.length =
      strings.ReplaceAll up '/' '_' := by
    rw [← hlen]
    exact List.take_left' rfl
  have hd1 : (strings.ReplaceAll up '/' '_' ++ '@' :: rest).drop up.length = '@' :: rest := by
    rw [← hlen]
    exact List.drop_left' rfl
  have ht2 : (up ++ '@' :: rest).take up.length = up := List.take_left' rfl
  have hd2 : (up ++ '@' :: rest).drop up.length = '@' :: rest := List.drop_left' rfl
  refine ⟨_, hesc, ?_, ?_, ?_, ?_, ?_, ?_, ?_⟩
  · rw [hs]
    simp [strings.ReplaceAll]
  · rw [hi]
    omega
  · rw [hi, Int.toNat_ofNat, hs, ht2]
    exact hup
  · rw [hi, Int.toNat_ofNat, hs, hd2]
    rfl
  · rw [hi, Int.toNat_ofNat, hs, ht1, ht2]
    rfl
  · rw [hi, Int.toNat_ofNat, ht1]
    exact ReplaceAll_not_mem up (by decide)
  · rw [hi, Int.toNat_ofNat, hs, hd1, hd2]

set_option maxRecDepth 1000000 in
/-- C16 at `us/er:k/ey@share:/mnt/a`: the result is `us_er:k_ey@share:/mnt/a`. -/
theorem C16_escape_shape_witness :
    escapeKeySlashes "us/er:k/ey@share:/mnt/a".toList = .ok "us_er:k_ey@share:/mnt/a".toList ∧
    ∃ e, escapeKeySlashes "us/er:k/ey@share:/mnt/a".toList = .ok e ∧
      e.length = "us/er:k/ey@share:/mnt/a".toList.length ∧
      0 ≤ strings.Index "us/er:k/ey@share:/mnt/a".toList '@' ∧
      '@' ∉ "us/er:k/ey@share:/mnt/a".toList.take
        (strings.Index "us/er:k/ey@share:/mnt/a".toList '@').toNat ∧
      ("us/er:k/ey@share:/mnt/a".toList.drop
        (strings.Index "us/er:k/ey@share:/mnt/a".toList '@').toNat).head? = some '@' ∧
      e.take (strings.Index "us/er:k/ey@share:/mnt/a".toList '@').toNat =
        ("us/er:k/ey@share:/mnt/a".toList.take
          (strings.Index "us/er:k/ey@share:/mnt/a".toList '@').toNat).map
          (fun c => if c = '/' then '_' else c) ∧
      '/' ∉ e.take (strings.Index "us/er:k/ey@share:/mnt/a".toList '@').toNat ∧
      e.drop (strings.Index "us/er:k/ey@share:/mnt/a".toList '@').toNat =
        "us/er:k/ey@share:/mnt/a".toList.drop
          (strings.Index "us/er:k/ey@share:/mnt/a".toList '@').toNat :=
  ⟨rfl, C16_escape_shape "us/er:k/ey@share:/mnt/a".toList (by decide)⟩

/-- C20: for every input string nothing indexes out of range: the split on `@`
has at least one element, so `escapeKeySlashes` never takes its "invalid URL
format" branch; when it returns a string, `atIndex` is non-negative and
inside the input, so the slice exists; a string with exactly two `:` splits
into exactly three tokens; and `volumeURL` always returns (no index panic). -/
theorem C20_no_index_out_of_range (s : Str) :
    strings.Split s '@' ≠ [] ∧
      (∀ rawURL, escapeKeySlashes s ≠ .error (.invalidURLFormat rawURL)) ∧
      (∀ e, escapeKeySlashes s = .ok e →
        0 ≤ strings.Index s '@' ∧ (strings.Index s '@').toNat < s.length) ∧
      (∀ pathURL : Str, strings.Count pathURL ':' = 2 →
        ∃ t0 t1 t2, strings.Split pathURL ':' = [t0, t1, t2]) ∧
      volumeURLString s ≠ none ∧ volumeURL s ≠ none := by
  refine ⟨strings.Split_ne_nil '@' s, ?_, ?_, ?_, volumeURLString_ne_none s,
    volumeURL_ne_none s⟩
  · intro rawURL h
    by_cases hat : '@' ∈ s
    · obtain ⟨up, rest, -, -, hesc⟩ := escapeKeySlashes_of_mem hat
      rw [hesc] at h
      cases h
    · rw [escapeKeySlashes_of_not_mem hat] at h
      cases h
  · intro e he
    have hat : '@' ∈ s := by
      by_contra hn
      rw [escapeKeySlashes_of_not_mem hn] at he
      cases he
    have h0 := strings.Index_nonneg_of_mem hat
    exact ⟨h0, Index_lt_length h0⟩
  · intro pathURL hc
    obtain ⟨x, y, z, he, hx, hy, hz⟩ := eq_three_pieces hc
    exact ⟨x, y, z, he ▸ Split_three hx hy hz⟩

end Volume

namespace Volume

theorem Count_slashes (e : Str) :
    strings.Count ('/' :: '/' :: e) ':' = strings.Count e ':' := by
  rw [Count_cons_of_ne (by decide), Count_cons_of_ne (by decide)]

/-- C15: for every input string `s` with `@` and at most two `:`, the string
`volumeURL` hands to `url.Parse` is `//` followed by `escapeKeySlashes s` when
that string has fewer than two `:`, and that same string with exactly its
second `:` deleted when it has exactly two. -/
theorem C15_string_for_url_parse (s : Str) (hat : '@' ∈ s)
    (hc : strings.Count s ':' ≤ 2) :
    ∃ e, escapeKeySlashes s = .ok e ∧
      volumeURLString s = some (.ok
        (if strings.Count ('/' :: '/' :: e) ':' < 2 then '/' :: '/' :: e
         else deleteOccurrence ':' 1 ('/' :: '/' :: e))) ∧
      volumeURL s = some
        (match url.Parse
            (if strings.Count ('/' :: '/' :: e) ':' < 2 then '/' :: '/' :: e
             else deleteOccurrence ':' 1 ('/' :: '/' :: e)) with
          | .error err => .error (.urlParse err)
          | .ok u => .ok u) := by
  obtain ⟨up, rest, hs, -, hesc⟩ := escapeKeySlashes_of_mem hat
  have hcount : strings.Count (strings.ReplaceAll up '/' '_' ++ '@' :: rest) ':' =
      strings.Count s ':' := by
    rw [hs, Count_append, Count_append, Count_ReplaceAll up (by decide) (by decide)]
  have hstr : volumeURLString s = some (.ok
      (if strings.Count ('/' :: '/' :: (strings.ReplaceAll up '/' '_' ++ '@' :: rest)) ':' < 2
        then '/' :: '/' :: (strings.ReplaceAll up '/' '_' ++ '@' :: rest)
        else deleteOccurrence ':' 1
          ('/' :: '/' :: (strings.ReplaceAll up '/' '_' ++ '@' :: rest)))) := by
    rw [Count_slashes]
    by_cases h2 : strings.Count (strings.ReplaceAll up '/' '_' ++ '@' :: rest) ':' < 2
    · rw [if_pos h2]
      exact volumeURLString_of_escaped_lt hesc h2
    · rw [if_neg h2]
      have hc2 : strings.Count (strings.ReplaceAll up '/' '_' ++ '@' :: rest) ':' = 2 := by
        omega
      obtain ⟨x, y, z, he, hx, hy, hz⟩ := eq_three_pieces hc2
      rw [he] at hesc ⊢
      have hx2 : ':' ∉ '/' :: '/' :: x := by
        intro m
        simp only [List.mem_cons] at m
        rcases m with e | e | m
        · exact absurd e (by decide)
        · exact absurd e (by decide)
        · exact hx m
      have hdel := deleteOccurrence_one_append y z hy hx2
      rw [volumeURLString_of_escaped_two hesc hx hy hz]
      exact congrArg (fun t => some (Except.ok t)) hdel.symm
  refine ⟨_, hesc, hstr, ?_⟩
  unfold volumeURL
  rw [hstr]
  simp only
  split <;> simp_all

set_option maxRecDepth 1000000 in
/-- C15 at `user:key@share:/mnt/a`: the parser gets `//user:key@share/mnt/a`. -/
theorem C15_string_for_url_parse_witness :
    volumeURLString "user:key@share:/mnt/a".toList =
        some (.ok "//user:key@share/mnt/a".toList) ∧
    ∃ e, escapeKeySlashes "user:key@share:/mnt/a".toList = .ok e ∧
      volumeURLString "user:key@share:/mnt/a".toList = some (.ok
        (if strings.Count ('/' :: '/' :: e) ':' < 2 then '/' :: '/' :: e
         else deleteOccurrence ':' 1 ('/' :: '/' :: e))) ∧
      volumeURL "user:key@share:/mnt/a".toList = some
        (match url.Parse
            (if strings.Count ('/' :: '/' :: e) ':' < 2 then '/' :: '/' :: e
             else deleteOccurrence ':' 1 ('/' :: '/' :: e)) with
          | .error err => .error (.urlParse err)
          | .ok u => .ok u) :=
  ⟨rfl, C15_string_for_url_parse "user:key@share:/mnt/a".toList (by decide) (by decide)⟩

set_option maxRecDepth 1000000 in
/-- C14 fails at `a:b:c@share`: the input contains `@`, its `//`-prefixed escaped
form `//a:b:c@share` has exactly two `:`, and the `:` that `volumeURL` removes
(the second, at index 5) lies before the first `@` (at index 7), inside the
`username:key` part: `url.Parse` gets `//a:bc@share` and parse succeeds with
the key `bc`. -/
theorem C14_removed_colon_before_at :
    '@' ∈ "a:b:c@share".toList ∧
      escapeKeySlashes "a:b:c@share".toList = .ok "a:b:c@share".toList ∧
      strings.Count "//a:b:c@share".toList ':' = 2 ∧
      strings.Index "//a:b:c@share".toList '@' = 7 ∧
      "//a:b:c@share".toList.take 5 ++ "//a:b:c@share".toList.drop 6 =
        "//a:bc@share".toList ∧
      volumeURLString "a:b:c@share".toList = some (.ok "//a:bc@share".toList) ∧
      volumeInput.parse {} "volume-0".toList "a:b:c@share".toList =
        some ({ name := "volume-0".toList, username := "a".toList, key := "bc".toList,
                share := "share".toList, target := "/run/volumes/share".toList }, none) :=
  ⟨by decide, rfl, by decide, by decide, by decide, rfl, by decide⟩

end Volume

/-! ## What a successful parse guarantees -/

namespace Volume

/-- A successful parse comes from a URL with non-empty username, password and
host, and the receiver holds exactly the fields read from it. -/
theorem parse_success {v vi : volumeInput} {name s : Str}
    (h : volumeInput.parse v name s = some (vi, none)) :
    ∃ u, volumeURL s = some (.ok u) ∧ url.Userinfo.Username u.User ≠ [] ∧
      (url.Userinfo.Password u.User).1 ≠ [] ∧ u.Host ≠ [] ∧
      vi = { name := name
             username := url.Userinfo.Username u.User
             key := unescapeKey (url.Userinfo.Password u.User).1
             share := u.Host
             target := if u.Path = [] then "/run/volumes/".toList ++ u.Host else u.Path } := by
  unfold volumeInput.parse at h
  cases hs : volumeURL s with
  | none => rw [hs] at h; simp at h
  | some r =>
    rw [hs] at h
    cases r with
    | error e => simp at h
    | ok u =>
      refine ⟨u, rfl, ?_⟩
      simp only at h
      split at h
      · simp at h
      · rename_i h1
        split at h
        · simp at h
        · rename_i h2
          split at h
          · simp at h
          · rename_i h3
            simp only [not_or] at h2
            refine ⟨h1, h2.2, h3, ?_⟩
            split at h
            · rename_i h4
              simp only [Option.some.injEq, Prod.mk.injEq, and_true] at h
              rw [← h]
              simp [h4]
            · rename_i h4
              simp only [Option.some.injEq, Prod.mk.injEq, and_true] at h
              rw [← h]
              simp [h4]

namespace url

theorem unescape_eq_decode {s p : Str} {mode : encoding} (h : unescape s mode = .ok p) :
    p = unescapeDecode mode s := by
  unfold unescape at h
  cases hc : unescapeCheck mode s with
  | error e => rw [hc] at h; cases h
  | ok x =>
    rw [hc] at h
    cases h
    rfl

/-- Un-escaping keeps an empty string empty and a leading `/` in place. -/
theorem unescape_rooted {s p : Str} {mode : encoding} (h : unescape s mode = .ok p)
    (hs : s = [] ∨ ∃ t, s = '/' :: t) : p = [] ∨ ∃ q, p = '/' :: q := by
  rw [unescape_eq_decode h]
  rcases hs with rfl | ⟨t, rfl⟩
  · exact Or.inl (by simp [unescapeDecode])
  · refine Or.inr ⟨unescapeDecode mode t, ?_⟩
    conv_lhs => unfold unescapeDecode
    simp

theorem split_snd_keep (s : Str) (sep : Char) :
    (split s sep false).2 = [] ∨ ∃ t, (split s sep false).2 = sep :: t := by
  unfold split
  by_cases h : strings.Index s sep < 0
  · simp [h]
  · have h0 : 0 ≤ strings.Index s sep := by omega
    obtain ⟨up, rest, hs, hup⟩ := List.eq_append_cons_of_mem (mem_of_Index_nonneg h0)
    refine Or.inr ⟨rest, ?_⟩
    simp only [h, if_false, Bool.false_eq_true]
    rw [hs, strings.Index_append_cons rest hup, Int.toNat_ofNat]
    exact List.drop_left' rfl

theorem parseRest_path {viaRequest : Bool} {u0 u : URL} {rest1 : Str}
    (h : parseRest viaRequest u0 ('/' :: rest1) = .ok u) :
    u.Path = [] ∨ ∃ p, u.Path = '/' :: p := by
  unfold parseRest at h
  split at h
  · cases ha : parseAuthority (split (List.drop 2 ('/' :: rest1)) '/' false).1 with
    | error e => rw [ha] at h; cases h
    | ok r =>
      obtain ⟨user, host⟩ := r
      rw [ha] at h
      simp only at h
      cases hp : unescape (split (List.drop 2 ('/' :: rest1)) '/' false).2 .encodePath with
      | error e => rw [hp] at h; cases h
      | ok path =>
        rw [hp] at h
        cases h
        exact unescape_rooted hp (split_snd_keep _ _)
  · cases hp : unescape ('/' :: rest1) .encodePath with
    | error e => rw [hp] at h; cases h
    | ok path =>
      rw [hp] at h
      cases h
      exact unescape_rooted hp (Or.inr ⟨rest1, rfl⟩)

end url

end Volume

namespace Volume

namespace url

theorem parse_path {x : Str} {u : URL} (h : parse ('/' :: x) false = .ok u) :
    u.Path = [] ∨ ∃ p, u.Path = '/' :: p := by
  unfold parse at h
  rw [getscheme_slash] at h
  split at h
  · cases h
  · split at h
    · rename_i hc
      simp at hc
    · split at h
      · rename_i hc
        simp at hc
      · simp only at h
        have hrest : ∃ rest1, (if strings.HasSuffix ('/' :: x) ['?'] = true ∧
            strings.Count ('/' :: x) '?' = 1 then ('/' :: x).dropLast
            else (split ('/' :: x) '?' true).1) = '/' :: rest1 := by
          split
          · rename_i hc
            cases x with
            | nil => simp [strings.HasSuffix, strings.HasPrefix] at hc
            | cons a as => exact ⟨(a :: as).dropLast, rfl⟩
          · unfold split
            have hi : strings.Index ('/' :: x) '?' =
                if strings.Index x '?' < 0 then -1 else strings.Index x '?' + 1 := by
              simp [strings.Index]
            by_cases hn : strings.Index x '?' < 0
            · rw [hi, if_pos hn]
              exact ⟨x, by simp⟩
            · rw [hi, if_neg hn]
              have hpos : ¬ (strings.Index x '?' + 1 < 0) := by omega
              have hnat : (strings.Index x '?' + 1).toNat = (strings.Index x '?').toNat + 1 := by
                omega
              simp only [hpos, if_false, if_true, hnat, List.take_succ_cons]
              exact ⟨_, rfl⟩
        obtain ⟨rest1, hrest⟩ := hrest
        rw [hrest] at h
        simp only [strings.HasPrefix, decide_True, Bool.and_self, Bool.not_true,
          Bool.false_eq_true, if_false] at h
        exact parseRest_path h

/-- The path `url.Parse` returns for a string that starts with `/` is empty or
starts with `/`. -/
theorem Parse_path {x : Str} {u : URL} (h : Parse ('/' :: x) = .ok u) :
    u.Path = [] ∨ ∃ p, u.Path = '/' :: p := by
  have hfst : ∃ x1, (split ('/' :: x) '#' true).1 = '/' :: x1 := by
    unfold split
    have hi : strings.Index ('/' :: x) '#' =
        if strings.Index x '#' < 0 then -1 else strings.Index x '#' + 1 := by
      simp [strings.Index]
    by_cases hn : strings.Index x '#' < 0
    · rw [hi, if_pos hn]
      exact ⟨x, by simp⟩
    · rw [hi, if_neg hn]
      have hpos : ¬ (strings.Index x '#' + 1 < 0) := by omega
      have hnat : (strings.Index x '#' + 1).toNat = (strings.Index x '#').toNat + 1 := by
        omega
      simp only [hpos, if_false, if_true, hnat, List.take_succ_cons]
      exact ⟨_, rfl⟩
  obtain ⟨x1, hfst⟩ := hfst
  unfold Parse at h
  rw [hfst] at h
  cases hp : parse ('/' :: x1) false with
  | error e => rw [hp] at h; cases h
  | ok u0 =>
    rw [hp] at h
    have h0 := parse_path hp
    simp only at h
    split at h
    · cases h
      exact h0
    · split at h
      · cases h
      · cases h
        exact h0

end url

theorem Split_cons_of_ne {c sep : Char} (h : c ≠ sep) (cs : Str) :
    ∃ t ts, strings.Split (c :: cs) sep = (c :: t) :: ts := by
  cases hs : strings.Split cs sep with
  | nil => exact absurd hs (strings.Split_ne_nil sep cs)
  | cons t ts => exact ⟨t, ts, by simp [strings.Split, h, hs]⟩

/-- Every string `volumeURL` hands to `url.Parse` starts with `/`. -/
theorem volumeURLString_rooted {s str : Str} (h : volumeURLString s = some (.ok str)) :
    ∃ r, str = '/' :: r := by
  unfold volumeURLString at h
  cases he : escapeKeySlashes s with
  | error e => rw [he] at h; simp at h
  | ok e =>
    rw [he] at h
    simp only at h
    split at h
    · simp at h
    · split at h
      · have hne : '/' ≠ ':' := by decide
        obtain ⟨t, ts, hsp⟩ := Split_cons_of_ne hne ('/' :: e)
        rw [hsp] at h
        simp only [List.getElem?_cons_zero] at h
        split at h
        · rename_i t0 t1 t2 h0 h1 h2
          cases h0
          simp only [Option.some.injEq, Except.ok.injEq] at h
          exact ⟨_, h.symm⟩
        · cases h
      · simp only [Option.some.injEq, Except.ok.injEq] at h
        exact ⟨_, h.symm⟩

/-- The path of every URL `volumeURL` returns is empty or starts with `/`. -/
theorem volumeURL_path {s : Str} {u : url.URL} (h : volumeURL s = some (.ok u)) :
    u.Path = [] ∨ ∃ p, u.Path = '/' :: p := by
  unfold volumeURL at h
  cases hs : volumeURLString s with
  | none => rw [hs] at h; cases h
  | some r =>
    rw [hs] at h
    cases r with
    | error e => simp at h
    | ok str =>
      obtain ⟨r, rfl⟩ := volumeURLString_rooted hs
      simp only at h
      cases hp : url.Parse ('/' :: r) with
      | error e => rw [hp] at h; simp at h
      | ok u0 =>
        rw [hp] at h
        simp only [Option.some.injEq, Except.ok.injEq] at h
        subst h
        exact url.Parse_path hp

end Volume

namespace Volume

/-- C13: for every assigned name and every input string, if parse returns no
error then the resulting username, key and share are all non-empty. -/
theorem C13_fields_non_empty (v vi : volumeInput) (name s : Str)
    (h : volumeInput.parse v name s = some (vi, none)) :
    vi.username ≠ [] ∧ vi.key ≠ [] ∧ vi.share ≠ [] := by
  obtain ⟨u, -, h1, h2, h3, rfl⟩ := parse_success h
  exact ⟨h1, fun e => h2 (ReplaceAll_eq_nil.mp e), h3⟩

set_option maxRecDepth 1000000 in
/-- C13 at `user:key@share:/mnt/a`. -/
theorem C13_fields_non_empty_witness :
    volumeInput.parse {} "volume-0".toList "user:key@share:/mnt/a".toList =
        some ({ name := "volume-0".toList, username := "user".toList, key := "key".toList,
                share := "share".toList, target := "/mnt/a".toList }, none) ∧
      "user".toList ≠ [] ∧ "key".toList ≠ [] ∧ "share".toList ≠ [] :=
  ⟨by decide, C13_fields_non_empty {}
    { name := "volume-0".toList, username := "user".toList, key := "key".toList,
      share := "share".toList, target := "/mnt/a".toList }
    "volume-0".toList "user:key@share:/mnt/a".toList (by decide)⟩

/-- C19: for every assigned name and every input string, if parse returns no
error then the resulting target is non-empty and begins with `/`: it is the
URL path, which starts with `/`, or `/run/volumes/` followed by the share. -/
theorem C19_target_rooted (v vi : volumeInput) (name s : Str)
    (h : volumeInput.parse v name s = some (vi, none)) :
    vi.target ≠ [] ∧ (∃ t, vi.target = '/' :: t) ∧
      ∃ u, volumeURL s = some (.ok u) ∧
        ((u.Path ≠ [] ∧ vi.target = u.Path) ∨
          (u.Path = [] ∧ vi.target = "/run/volumes/".toList ++ vi.share)) := by
  obtain ⟨u, hu, -, -, -, rfl⟩ := parse_success h
  have hpath := volumeURL_path hu
  by_cases hp : u.Path = []
  · refine ⟨?_, ?_, u, hu, Or.inr ⟨hp, ?_⟩⟩
    · simp [hp]
    · exact ⟨_, by simp only [hp, if_true]; rfl⟩
    · simp only [hp, if_true]
  · rcases hpath with h0 | ⟨p, hp2⟩
    · exact absurd h0 hp
    · refine ⟨?_, ⟨p, ?_⟩, u, hu, Or.inl ⟨hp, ?_⟩⟩
      · simp only [hp, if_false]
        exact hp
      · simp only [hp, if_false]
        exact hp2
      · simp only [hp, if_false]

set_option maxRecDepth 1000000 in
/-- C19 at `user:key@share:/mnt/a` (target `/mnt/a`). -/
theorem C19_target_rooted_witness :
    volumeInput.parse {} "volume-0".toList "user:key@share:/mnt/a".toList =
        some ({ name := "volume-0".toList, username := "user".toList, key := "key".toList,
                share := "share".toList, target := "/mnt/a".toList }, none) ∧
    "/mnt/a".toList ≠ [] ∧ (∃ t, "/mnt/a".toList = '/' :: t) ∧
      ∃ u, volumeURL "user:key@share:/mnt/a".toList = some (.ok u) ∧
        ((u.Path ≠ [] ∧ "/mnt/a".toList = u.Path) ∨
          (u.Path = [] ∧ "/mnt/a".toList = "/run/volumes/".toList ++ "share".toList)) :=
  ⟨by decide, C19_target_rooted {}
    { name := "volume-0".toList, username := "user".toList, key := "key".toList,
      share := "share".toList, target := "/mnt/a".toList }
    "volume-0".toList "user:key@share:/mnt/a".toList (by decide)⟩

/-- On a list whose elements all parse, `GetRunVolumes` returns the map entry
and the service-volume record built from each element. -/
theorem GetRunVolumes_entries (k : Constants) (volumes : List Str)
    (h : ∀ i s, volumes[i]? = some s →
      ∃ vi, volumeInput.parse {} (volumeName i) s = some (vi, none)) :
    ∃ m svs, GetRunVolumes k volumes = some ⟨some m, svs, none⟩ ∧
      ∀ i s vi, volumes[i]? = some s →
        volumeInput.parse {} (volumeName i) s = some (vi, none) →
        GoMap.get? m (volumeName i) = some
          { Name := volumeName i
            Driver := k.azureFileDriverName
            DriverOpts :=
              GoMap.set (GoMap.set (GoMap.set [] k.volumeDriveroptsAccountNameKey vi.username)
                k.volumeDriveroptsAccountKeyKey vi.key) k.volumeDriveroptsShareNameKey
                vi.share } ∧
        (GoSlice.elems svs)[i]? = some ⟨k.azureFileDriverName, volumeName i, vi.target⟩ := by
  have h0 : ∀ j s, volumes[j]? = some s →
      ∃ vi, volumeInput.parse {} (volumeName (0 + j)) s = some (vi, none) := by
    intro j s hj
    rw [Nat.zero_add]
    exact h j s hj
  obtain ⟨E, svs, L, hloop, hsvs, hE, hL, hidx⟩ :=
    GetRunVolumesLoop_ok k volumes 0 [] none h0 (by
      intro key hk
      cases hk)
  have hkeys : E.map Prod.fst = (List.range volumes.length).map volumeName := by
    apply List.ext_getElem?
    intro n
    rw [List.getElem?_map, List.getElem?_map]
    by_cases hn : n < volumes.length
    · have hs : volumes[n]? = some volumes[n] := List.getElem?_eq_getElem hn
      obtain ⟨vi, hvi⟩ := h0 n _ hs
      rw [(hidx n _ vi hs hvi).1, List.getElem?_range hn, Nat.zero_add]
      rfl
    · rw [List.getElem?_eq_none (by omega), List.getElem?_eq_none (by
        rw [List.length_range]
        omega)]
      rfl
  have hnd : (E.map Prod.fst).Nodup := by
    rw [hkeys]
    exact List.Nodup.map (fun a b e => volumeName_injective e) (List.nodup_range _)
  have hsvs2 : GoSlice.elems svs = L := by
    rw [hsvs]
    rfl
  refine ⟨E, svs, hloop, ?_⟩
  intro i s vi hs hp
  have hp0 : volumeInput.parse {} (volumeName (0 + i)) s = some (vi, none) := by
    rw [Nat.zero_add]
    exact hp
  obtain ⟨h1, h2⟩ := hidx i s vi hs hp0
  rw [Nat.zero_add] at h1 h2
  rw [hsvs2]
  exact ⟨GoMap.get?_of_getElem? E i _ _ hnd h1, h2⟩

/-- C12: for every list of specs on which `GetRunVolumes` succeeds and every
index `i`, the mapping entry `volume-i` has the driver `azureFileDriverName`
and the driver options built from the username, key and share parsed from the
`i`-th spec (exactly three entries, one per option key, when the three option
keys are distinct), and the `i`-th service-volume record has the type
`azureFileDriverName`. -/
theorem C12_driver_and_options (k : Constants) (volumes : List Str) (r : RunVolumes)
    (hr : GetRunVolumes k volumes = some r) (herr : r.err = none)
    (i : Nat) (s : Str) (hs : volumes[i]? = some s) :
    ∃ vi m cfg sv, volumeInput.parse {} (volumeName i) s = some (vi, none) ∧
      r.projectVolumes = some m ∧
      GoMap.get? m (volumeName i) = some cfg ∧
      cfg.Driver = k.azureFileDriverName ∧
      cfg.DriverOpts =
        GoMap.set (GoMap.set (GoMap.set [] k.volumeDriveroptsAccountNameKey vi.username)
          k.volumeDriveroptsAccountKeyKey vi.key) k.volumeDriveroptsShareNameKey vi.share ∧
      (k.volumeDriveroptsAccountNameKey ≠ k.volumeDriveroptsAccountKeyKey →
        k.volumeDriveroptsAccountNameKey ≠ k.volumeDriveroptsShareNameKey →
        k.volumeDriveroptsAccountKeyKey ≠ k.volumeDriveroptsShareNameKey →
        cfg.DriverOpts =
          [(k.volumeDriveroptsAccountNameKey, vi.username),
           (k.volumeDriveroptsAccountKeyKey, vi.key),
           (k.volumeDriveroptsShareNameKey, vi.share)]) ∧
      (GoSlice.elems r.serviceConfigVolumes)[i]? = some sv ∧
      sv.Type_ = k.azureFileDriverName := by
  have hall : ∀ j t, volumes[j]? = some t →
      ∃ vi, volumeInput.parse {} (volumeName j) t = some (vi, none) := by
    rcases GetRunVolumesLoop_cases k volumes 0 [] none with
      ⟨m, svs, -, hall⟩ | ⟨j, t, v, e, -, -, -, hres⟩
    · intro j t hj
      have := hall j t hj
      rwa [Nat.zero_add] at this
    · unfold GetRunVolumes at hr
      rw [hres] at hr
      cases hr
      cases herr
  obtain ⟨m, svs, hrun, hidx⟩ := GetRunVolumes_entries k volumes hall
  rw [hrun] at hr
  cases hr
  obtain ⟨vi, hvi⟩ := hall i s hs
  obtain ⟨h1, h2⟩ := hidx i s vi hs hvi
  refine ⟨vi, m, _, _, hvi, rfl, h1, rfl, rfl, ?_, h2, rfl⟩
  intro hab hac hbc
  simp [GoMap.set, hab, hac, hbc]

set_option maxRecDepth 1000000 in
/-- C12 at the single spec `user:key@share`, index 0, with the option keys
`storage_account_name`, `storage_account_key`, `share_name` and the driver
name `azure_file`. -/
theorem C12_driver_and_options_witness :
    ∃ vi m cfg sv,
      volumeInput.parse {} (volumeName 0) "user:key@share".toList = some (vi, none) ∧
      some [("volume-0".toList, (⟨"volume-0".toList, "azure_file".toList,
          [("storage_account_name".toList, "user".toList),
           ("storage_account_key".toList, "key".toList),
           ("share_name".toList, "share".toList)]⟩ : VolumeConfig))] = some m ∧
      GoMap.get? m (volumeName 0) = some cfg ∧
      cfg.Driver = "azure_file".toList ∧
      cfg.DriverOpts =
        GoMap.set (GoMap.set (GoMap.set [] "storage_account_name".toList vi.username)
          "storage_account_key".toList vi.key) "share_name".toList vi.share ∧
      ("storage_account_name".toList ≠ "storage_account_key".toList →
        "storage_account_name".toList ≠ "share_name".toList →
        "storage_account_key".toList ≠ "share_name".toList →
        cfg.DriverOpts =
          [("storage_account_name".toList, vi.username),
           ("storage_account_key".toList, vi.key),
           ("share_name".toList, vi.share)]) ∧
      (GoSlice.elems (some [(⟨"azure_file".toList, "volume-0".toList,
          "/run/volumes/share".toList⟩ : ServiceVolumeConfig)]))[0]? = some sv ∧
      sv.Type_ = "azure_file".toList :=
  C12_driver_and_options
    ⟨"azure_file".toList, "storage_account_name".toList, "storage_account_key".toList,
      "share_name".toList⟩
    ["user:key@share".toList]
    ⟨some [("volume-0".toList, ⟨"volume-0".toList, "azure_file".toList,
        [("storage_account_name".toList, "user".toList),
         ("storage_account_key".toList, "key".toList),
         ("share_name".toList, "share".toList)]⟩)],
      some [⟨"azure_file".toList, "volume-0".toList, "/run/volumes/share".toList⟩], none⟩
    (by decide) rfl 0 "user:key@share".toList rfl

end Volume
